import Mathlib

/-!
Shallow embedding of the PDF comparison core of `src/PDF_MATCHA.py`
(class `PDFComparerApp`): text preprocessing (`preprocess_text`,
lines 614-651), content-unit extraction (`extract_content_units`,
lines 653-673), the greedy cross-page matcher with its similarity
metrics (`compare_content_units`, lines 772-873), and the cascading
text locator / highlighter (`find_text_on_page`, lines 675-729, and
`highlight_text_on_page`, lines 731-770).

Modelling conventions:
* Python strings are `String` (a sequence of unicode characters).
* Python floats are modelled as exact rationals (`ℚ`).  Float
  literals such as `0.92` and `0.7` become the exact rationals
  `92/100` and `7/10`, written with `mkRat`; every comparison made by
  the modelled code is far outside double rounding error.
* Regex whitespace `\s` and `str.strip()` are modelled with
  `Char.isWhitespace` (space, tab, CR, LF), the whitespace characters
  relevant to the modelled text; `str.lower()` is modelled with
  `Char.toLower` (ASCII case mapping).
* `difflib.SequenceMatcher(None, a, b).ratio()` is modelled from its
  documented contract: `find_longest_match` returns the longest
  matching block, earliest in `a` and then earliest in `b`;
  `get_matching_blocks` recursively splits around that block; `ratio`
  is `2*M/(len(a)+len(b))` for the total matched size `M`, and `1.0`
  when both strings are empty (`difflib._calculate_ratio`).  The
  autojunk heuristic (which only engages for sequences of length at
  least 200) is not modelled; it does not affect the `[0,1]` range.
* The important parsing quirk of the source is preserved: in the
  `replacements` dict of `preprocess_text` (lines 631-637), the line
  written as four quote substitutions actually parses in Python as a
  triple-quoted string, so the real dict entries are the seven
  character key `: "'", ` mapping to a single straight quote,
  and the identity entry for the double quote character.
* Recursions whose termination is not structural carry an explicit
  fuel argument; the supplied fuel always strictly exceeds the number
  of iterations the Python loop can perform, so the fuel-exhausted
  branch is unreachable on every call made by the embedded code.
* `page.search_for` (PyMuPDF) is an external collaborator; it is
  modelled as an abstract function `String → List Nat` mapping a
  query to its hit rectangles (rectangles are opaque, here `Nat`).
  Functions that call it additionally return the ordered list of
  query strings submitted to it, so that claims about which queries
  are ever issued can be stated; annotation-adding code additionally
  returns the ordered list of rectangles highlighted.  UI, file I/O,
  progress reporting and table extraction are outside the modelled
  core.
-/

/-- A content unit as built by `extract_content_units` (line 671):
the tuple `(processed_text, page_number, original_text)`. -/
structure ContentUnit where
  processed : String
  page_num : Nat
  original : String
deriving DecidableEq

/-- Placeholder unit used only to totalize list indexing at indices the
code guarantees to be in range. -/
def dummyUnit : ContentUnit := ⟨"", 0, ""⟩

/-- The comparison configuration dict (lines 128-134); the
`output_folder` entry only names a directory for file output and is
outside the modelled core. -/
structure Config where
  exact_match_threshold : ℚ
  min_meaningful_text_length : Nat
  fuzzy_chunk_size : Nat
  enable_enhanced_preprocessing : Bool
deriving DecidableEq

/-- `self.comparison_config` as assigned in `PDFComparerApp.__init__`
(lines 128-134): threshold `0.92`, minimum meaningful length `13`,
fuzzy chunk size `5`, enhanced preprocessing enabled. -/
def comparison_config : Config := ⟨mkRat 92 100, 13, 5, true⟩

/-- Whitespace test for the modelled text, standing for regex `\s` and
for the character class stripped by `str.strip()`. -/
def isSpace (c : Char) : Bool := c.isWhitespace

/-- One step state of collapsing whitespace runs: the Boolean records
whether the previous character was whitespace.  `collapseWSAux false`
is `re.sub(r"\s+", " ", text)`. -/
def collapseWSAux : Bool → List Char → List Char
  | _, [] => []
  | prevSpace, c :: cs =>
    if isSpace c then
      if prevSpace then collapseWSAux true cs
      else ' ' :: collapseWSAux true cs
    else c :: collapseWSAux false cs

/-- `re.sub(r"\s+", " ", text)`: every maximal whitespace run becomes a
single space. -/
def collapseWS (l : List Char) : List Char := collapseWSAux false l

/-- Leading-whitespace removal, the left half of `str.strip()`. -/
def ltrim (l : List Char) : List Char := l.dropWhile isSpace

/-- Trailing-whitespace removal, the right half of `str.strip()`. -/
def rtrim : List Char → List Char
  | [] => []
  | c :: cs =>
    match rtrim cs with
    | [] => if isSpace c then [] else [c]
    | r => c :: r

/-- `str.strip()`. -/
def pyStrip (l : List Char) : List Char := rtrim (ltrim l)

/-- `str.strip()` at the `String` level. -/
def stripStr (s : String) : String := String.mk (pyStrip s.data)

/-- Structural well-formedness of collapsed whitespace, used to reason
about idempotence: every whitespace character is a plain space and no
space follows the position described by the flag (`true` means the
previous character was whitespace).  `wsOK false l` says all
whitespace in `l` is single interior spaces. -/
def wsOK : Bool → List Char → Prop
  | _, [] => True
  | b, c :: cs => (isSpace c = true → c = ' ' ∧ b = false) ∧ wsOK (isSpace c) cs

/-- Bool test used to translate `str.replace`: does `pat` begin the
list? -/
def startsWith : List Char → List Char → Bool
  | [], _ => true
  | _ :: _, [] => false
  | p :: ps, c :: cs => p = c && startsWith ps cs

/-- `text.replace(pat, rep)`: replace every non-overlapping occurrence
of `pat`, scanning left to right; replacement text is not rescanned.
The fuel is the length of the scanned text: each step consumes at
least one character of it (the table's patterns are all non-empty). -/
def pyReplace (pat rep : List Char) : Nat → List Char → List Char
  | _, [] => []
  | 0, c :: rest => c :: rest
  | fuel + 1, c :: rest =>
    if startsWith pat (c :: rest) then
      rep ++ pyReplace pat rep fuel ((c :: rest).drop pat.length)
    else c :: pyReplace pat rep fuel rest

/-- The `replacements` dict of `preprocess_text` (lines 631-637), in
Python insertion order, exactly as the file parses: five ligatures,
three dash variants, then (because the quote line actually parses as a
triple-quoted string) the seven character key
`[':', ' ', '"', quote, '"', ',', ' ']` mapping to a straight quote
and the identity entry for `'"'`, then the ellipsis and the four
zero-width characters. -/
def replTable : List (List Char × List Char) :=
  [ (['ﬁ'], ['f', 'i']), (['ﬂ'], ['f', 'l']), (['ﬀ'], ['f', 'f']),
    (['ﬃ'], ['f', 'f', 'i']), (['ﬄ'], ['f', 'f', 'l']),
    (['–'], ['-']), (['—'], ['-']), (['−'], ['-']),
    ([':', ' ', '"', '\'', '"', ',', ' '], ['\'']),
    (['"'], ['"']),
    (['…'], ['.', '.', '.']),
    (['\u200B'], []), (['\u200C'], []), (['\u200D'], []), (['\uFEFF'], []) ]

/-- `for old, new in replacements.items(): text = text.replace(old, new)`
(lines 639-640): sequential application of the table. -/
def applyRepl : List (List Char × List Char) → List Char → List Char
  | [], l => l
  | pr :: prs, l => applyRepl prs (pyReplace pr.1 pr.2 l.length l)

/-- `text.lower()` over the modelled alphabet. -/
def toLowerStr (l : List Char) : List Char := l.map Char.toLower

/-- The punctuation stripped by `re.sub(r"[,;:"']", " ", text)`
(line 647). -/
def isPunct (c : Char) : Bool := c = ',' || c = ';' || c = ':' || c = '"' || c = '\''

/-- `re.sub(r"[,;:"']", " ", text)`: each of those punctuation
characters becomes a space. -/
def punctToSpace (l : List Char) : List Char := l.map (fun c => if isPunct c then ' ' else c)

/-- `preprocess_text` (lines 614-651) at the character-list level.
`enhanced = false` is the basic branch (collapse whitespace, strip);
`enhanced = true` lowercases, applies the replacement table, collapses
whitespace, strips punctuation to spaces, collapses again and strips. -/
def preprocessList (enhanced : Bool) (l : List Char) : List Char :=
  if enhanced = false then pyStrip (collapseWS l)
  else pyStrip (collapseWS (punctToSpace (collapseWS (applyRepl replTable (toLowerStr l)))))

/-- `PDFComparerApp.preprocess_text` (lines 614-651). -/
def preprocess_text (cfg : Config) (text : String) : String :=
  String.mk (preprocessList cfg.enable_enhanced_preprocessing text.data)

/-- Index of the last newline of a list, if any — used to model the
greedy `\s*` of the paragraph-splitting regex. -/
def lastNewlinePos : List Char → Option Nat
  | [] => none
  | c :: rest =>
    match lastNewlinePos rest with
    | some p => some (p + 1)
    | none => if c = '\n' then some 0 else none

/-- `re.split(r"\n\s*\n", page_text)` (line 664): a match starts at a
newline and extends greedily through whitespace to the last newline of
that whitespace run; pieces between matches are returned, empty pieces
included.  Fuel: each step consumes at least one character. -/
def splitParasAux : Nat → List Char → List Char → List (List Char)
  | 0, rest, cur => [cur.reverse ++ rest]
  | _ + 1, [], cur => [cur.reverse]
  | fuel + 1, c :: rest, cur =>
    if c = '\n' then
      match lastNewlinePos (rest.takeWhile isSpace) with
      | some p => cur.reverse :: splitParasAux fuel (rest.drop (p + 1)) []
      | none => splitParasAux fuel rest (c :: cur)
    else splitParasAux fuel rest (c :: cur)

/-- `re.split(r"\n\s*\n", s)` at the `String` level. -/
def splitParagraphs (s : String) : List String :=
  (splitParasAux (s.data.length + 1) s.data []).map String.mk

/-- The body of the paragraph loop of `extract_content_units`
(lines 666-671): normalize each paragraph and keep it only when the
processed text is non-empty and longer than
`min_meaningful_text_length`. -/
def paragraphUnits (cfg : Config) (pageNum : Nat) (pageText : String) : List ContentUnit :=
  (splitParagraphs pageText).filterMap (fun par =>
    let processed := preprocess_text cfg par
    if processed ≠ "" ∧ cfg.min_meaningful_text_length < processed.length
    then some ⟨processed, pageNum, par⟩ else none)

/-- The page loop of `extract_content_units` (lines 662-671), with the
running page number made explicit. -/
def extractFrom (cfg : Config) : Nat → List String → List ContentUnit
  | _, [] => []
  | pageNum, t :: ts => paragraphUnits cfg pageNum t ++ extractFrom cfg (pageNum + 1) ts

/-- `PDFComparerApp.extract_content_units` (lines 653-673). -/
def extract_content_units (cfg : Config) (text_by_page : List String) : List ContentUnit :=
  extractFrom cfg 0 text_by_page

/-- Length of the common prefix of two character lists. -/
def commonLen : List Char → List Char → Nat
  | a :: as, b :: bs => if a = b then commonLen as bs + 1 else 0
  | _, _ => 0

/-- Size of the maximal matching block of `a` and `b` that starts at
`(i, j)` and stays inside `[.. ahi)` and `[.. bhi)`. -/
def extLen (a b : List Char) (ahi bhi i j : Nat) : Nat :=
  commonLen ((a.take ahi).drop i) ((b.take bhi).drop j)

/-- `SequenceMatcher.find_longest_match(alo, ahi, blo, bhi)` by its
documented contract (no junk): among all matching blocks inside the
window, return the triple `(i, j, k)` of maximal size `k`, earliest in
`a`, then earliest in `b`; `(alo, blo, 0)` when there is none.  The
scan below visits candidates in lexicographic `(i, j)` order and only a
strictly larger block replaces the current best, which realizes exactly
that tie-breaking. -/
def findLongestMatch (a b : List Char) (alo ahi blo bhi : Nat) : Nat × Nat × Nat :=
  (List.range' alo (ahi - alo)).foldl (fun best i =>
    (List.range' blo (bhi - blo)).foldl (fun best2 j =>
      let k := extLen a b ahi bhi i j
      if best2.2.2 < k then (i, j, k) else best2) best)
    (alo, blo, 0)

/-- Total size of the matching blocks `SequenceMatcher.get_matching_blocks`
collects on the window: recursive splitting around the longest match.
The fuel dominates the recursion depth (each side of the split is a
strictly smaller window). -/
def matchesSum (a b : List Char) : Nat → Nat → Nat → Nat → Nat → Nat
  | _, _, _, _, 0 => 0
  | alo, ahi, blo, bhi, fuel + 1 =>
    match findLongestMatch a b alo ahi blo bhi with
    | (i, j, k) =>
      if k = 0 then 0
      else matchesSum a b alo i blo j fuel + k + matchesSum a b (i + k) ahi (j + k) bhi fuel

/-- Total matched size for two whole strings. -/
def seqMatches (s t : String) : Nat :=
  matchesSum s.data t.data 0 s.data.length 0 t.data.length (s.data.length + t.data.length + 1)

/-- `difflib.SequenceMatcher(None, s, t).ratio()`: the exact rational
value of `2.0 * matches / (len(s) + len(t))`, and `1.0` when both
strings are empty (`difflib._calculate_ratio`). -/
def ratioOf (s t : String) : ℚ :=
  if s.length + t.length = 0 then 1
  else mkRat (2 * seqMatches s t) (s.length + t.length)

/-- The inner candidate scan of `compare_content_units` (lines 805-818)
for one old unit with processed text `t`: walk the unmatched-new list
carrying the current index `j` and running best `(bi, bs)`
(`best_match_idx`, `best_similarity`, initially `(-1, 0)`).  The first
candidate with similarity at least `th` stops the scan (`Sum.inl` of
its index and similarity); otherwise the final best is returned
(`Sum.inr`). -/
def scanNew (sim : String → String → ℚ) (th : ℚ) (t : String) :
    List ContentUnit → Nat → Int → ℚ → Sum (Nat × ℚ) (Int × ℚ)
  | [], _, bi, bs => Sum.inr (bi, bs)
  | u :: rest, j, bi, bs =>
    let s := sim t u.processed
    let bi2 := if bs < s then (j : Int) else bi
    let bs2 := if bs < s then s else bs
    if th ≤ s then Sum.inl (j, s)
    else scanNew sim th t rest (j + 1) bi2 bs2

/-- Pure best tracking of the same scan, used to characterize the
no-threshold-match outcome of `scanNew`. -/
def bestFold (sim : String → String → ℚ) (t : String) :
    List ContentUnit → Nat → Int → ℚ → Int × ℚ
  | [], _, bi, bs => (bi, bs)
  | u :: rest, j, bi, bs =>
    if bs < sim t u.processed then bestFold sim t rest (j + 1) (j : Int) (sim t u.processed)
    else bestFold sim t rest (j + 1) bi bs

/-- State of the old-unit loop of `compare_content_units`
(lines 788-831).  `removed`, `unmatched_new` and `matched_pairs` are
the lists the code mutates; `exact_old` records the old units for which
`old_matched[i]` is set to `True` (line 815), and `consumed_new` the
new units removed by `unmatched_new.pop(j)` (line 817) — the two
events whose occurrences the partition claims count. -/
structure MatchState where
  removed : List ContentUnit
  unmatched_new : List ContentUnit
  matched_pairs : List (ContentUnit × ContentUnit × ℚ)
  exact_old : List ContentUnit
  consumed_new : List ContentUnit
deriving DecidableEq

/-- The old-unit loop of `compare_content_units` (lines 799-828): for
each old unit, scan the current unmatched-new list; on a threshold
match record the pair, erase the candidate and mark the old unit
matched; with no threshold match but a recorded best index and best
similarity above `0.7` record a statistical pair and classify the old
unit removed; otherwise just classify it removed.  `mkRat 7 10` is the
exact value of the float literal `0.7`. -/
def matchLoop (sim : String → String → ℚ) (th : ℚ) :
    List ContentUnit → MatchState → MatchState
  | [], st => st
  | o :: olds, st =>
    match scanNew sim th o.processed st.unmatched_new 0 (-1) 0 with
    | Sum.inl (j, s) =>
      matchLoop sim th olds
        ⟨st.removed, st.unmatched_new.eraseIdx j,
         st.matched_pairs ++ [(o, st.unmatched_new.getD j dummyUnit, s)],
         st.exact_old ++ [o],
         st.consumed_new ++ [st.unmatched_new.getD j dummyUnit]⟩
    | Sum.inr (bi, bs) =>
      if 0 ≤ bi ∧ mkRat 7 10 < bs then
        matchLoop sim th olds
          ⟨st.removed ++ [o], st.unmatched_new,
           st.matched_pairs ++ [(o, st.unmatched_new.getD bi.toNat dummyUnit, bs)],
           st.exact_old, st.consumed_new⟩
      else
        matchLoop sim th olds
          ⟨st.removed ++ [o], st.unmatched_new, st.matched_pairs,
           st.exact_old, st.consumed_new⟩

/-- Sum of the similarities of the recorded pairs: the accumulation
loop of lines 841-844. -/
def simSum : List (ContentUnit × ContentUnit × ℚ) → ℚ
  | [] => 0
  | p :: ps => p.2.2 + simSum ps

/-- `" ".join(strs)`. -/
def joinSpace : List String → String
  | [] => ""
  | [s] => s
  | s :: ss => s ++ " " ++ joinSpace ss

/-- The values returned by `compare_content_units` (lines 865-873):
the `removed` and `added` lists and the `similarity_scores` dict. -/
structure ComparisonResult where
  removed : List ContentUnit
  added : List ContentUnit
  avg_content_similarity : ℚ
  document_similarity : ℚ
  retention_rate : ℚ
  text_similarity : ℚ
  matched_content_pairs : List (ContentUnit × ContentUnit × ℚ)

/-- `PDFComparerApp.compare_content_units` (lines 772-873): run the
greedy matching loop, then compute the four metrics, each one guarded
exactly as in the code (lines 838-863). -/
def compare_content_units (cfg : Config) (old_units new_units : List ContentUnit) :
    ComparisonResult :=
  let st := matchLoop ratioOf cfg.exact_match_threshold old_units ⟨[], new_units, [], [], []⟩
  let total_old := old_units.length
  let total_new := new_units.length
  let matched_content := st.matched_pairs.length
  let avg_similarity : ℚ :=
    if st.matched_pairs ≠ [] then simSum st.matched_pairs / matched_content else 0
  let doc_similarity : ℚ :=
    if 0 < total_old ∧ 0 < total_new then
      (if 0 < (total_old : ℚ) + total_new - matched_content then
        (matched_content : ℚ) / ((total_old : ℚ) + total_new - matched_content) * 100
      else 0)
    else 0
  let retention : ℚ :=
    if 0 < total_old then (((total_old : ℚ) - st.removed.length) / total_old) * 100 else 0
  let text_sim : ℚ :=
    ratioOf (joinSpace (old_units.map ContentUnit.processed))
      (joinSpace (new_units.map ContentUnit.processed)) * 100
  ⟨st.removed, st.unmatched_new, avg_similarity * 100, doc_similarity, retention, text_sim,
   st.matched_pairs⟩

/-- Did the previous character end a sentence?  Models the lookbehind
`(?<=[.!?])` of the sentence-splitting regex. -/
def isSentenceEnd : Option Char → Bool
  | some c => c = '.' || c = '!' || c = '?'
  | none => false

/-- `re.split(r"(?<=[.!?])\s+", text)` (lines 703 and 713): split at
each maximal whitespace run immediately preceded by `.`, `!` or `?`;
the punctuation stays with the preceding piece.  Fuel: each step
consumes at least one character. -/
def splitSentAux : Nat → Option Char → List Char → List Char → List (List Char)
  | 0, _, rest, cur => [cur.reverse ++ rest]
  | _ + 1, _, [], cur => [cur.reverse]
  | fuel + 1, prev, c :: rest, cur =>
    if isSpace c && isSentenceEnd prev then
      cur.reverse :: splitSentAux fuel none (rest.dropWhile isSpace) []
    else splitSentAux fuel (some c) rest (c :: cur)

/-- `re.split(r"(?<=[.!?])\s+", s)` at the `String` level. -/
def splitSentences (s : String) : List String :=
  (splitSentAux (s.data.length + 1) none s.data []).map String.mk

/-- `str.split()` with no separator (line 718): whitespace-delimited
words, empty pieces dropped. -/
def wordsAux : List Char → List Char → List (List Char)
  | [], cur => if cur.isEmpty then [] else [cur.reverse]
  | c :: rest, cur =>
    if isSpace c then
      if cur.isEmpty then wordsAux rest [] else cur.reverse :: wordsAux rest []
    else wordsAux rest (c :: cur)

/-- `s.split()` at the `String` level. -/
def pyWords (s : String) : List String := (wordsAux s.data []).map String.mk

/-- `text.split(sep)` for a one-character separator, empty pieces
kept. -/
def splitOnCharAux (sep : Char) : List Char → List Char → List (List Char)
  | [], cur => [cur.reverse]
  | c :: rest, cur =>
    if c = sep then cur.reverse :: splitOnCharAux sep rest []
    else splitOnCharAux sep rest (c :: cur)

/-- `text.split("\n")` (line 740). -/
def splitLines (s : String) : List String := (splitOnCharAux '\n' s.data []).map String.mk

/-- `text.split("\n\n")` (line 688): literal two-newline separator,
non-overlapping, left to right, empty pieces kept. -/
def splitOnNlNlAux : List Char → List Char → List (List Char)
  | [], cur => [cur.reverse]
  | '\n' :: '\n' :: rest, cur => cur.reverse :: splitOnNlNlAux rest []
  | c :: rest, cur => splitOnNlNlAux rest (c :: cur)

/-- `text.split("\n\n")` at the `String` level. -/
def splitLitNlNl (s : String) : List String := (splitOnNlNlAux s.data []).map String.mk

/-- The chunk list of the fuzzy tier (lines 720-722):
`[" ".join(words[i:i+cs]) for i in range(0, len(words), cs) if i + cs <= len(words)]`.
`List.range' 0 k cs` with `k = ⌈n / cs⌉` is Python `range(0, n, cs)`
for `cs ≥ 1` (the configuration guarantees `cs = 5`). -/
def fuzzyChunks (cs : Nat) (ws : List String) : List String :=
  ((List.range' 0 ((ws.length + cs - 1) / cs) cs).filter (fun i => i + cs ≤ ws.length)).map
    (fun i => joinSpace ((ws.drop i).take cs))

/-- The sentence loop inside a not-found paragraph (lines 703-709):
search every stripped sentence longer than
`min_meaningful_text_length`, accumulating all hits and logging every
query. -/
def tier2Sents (cfg : Config) (search : String → List Nat) :
    List String → List Nat × List String
  | [] => ([], [])
  | s :: ss =>
    let sentence := stripStr s
    let rest := tier2Sents cfg search ss
    if cfg.min_meaningful_text_length < sentence.length then
      (search sentence ++ rest.1, sentence :: rest.2)
    else rest

/-- The paragraph loop of `find_text_on_page` (lines 691-709): skip
empty paragraphs; a found paragraph contributes its hits and moves on;
a not-found paragraph falls through to its sentence loop.  All hits
accumulate; the loop never stops early. -/
def tier2Paras (cfg : Config) (search : String → List Nat) :
    List String → List Nat × List String
  | [] => ([], [])
  | p :: ps =>
    let par := stripStr p
    if par = "" then tier2Paras cfg search ps
    else
      let hits := search par
      let rest := tier2Paras cfg search ps
      if hits ≠ [] then (hits ++ rest.1, par :: rest.2)
      else
        let sres := tier2Sents cfg search (splitSentences par)
        (sres.1 ++ rest.1, par :: (sres.2 ++ rest.2))

/-- The chunk loop of the fuzzy tier (lines 724-727): search each chunk
longer than `min_meaningful_text_length`, accumulating hits. -/
def tier3Chunks (cfg : Config) (search : String → List Nat) :
    List String → List Nat × List String
  | [] => ([], [])
  | c :: cs =>
    let rest := tier3Chunks cfg search cs
    if cfg.min_meaningful_text_length < c.length then
      (search c ++ rest.1, c :: rest.2)
    else rest

/-- The sentence loop of the fuzzy tier (lines 713-727): only stripped
sentences longer than 20 characters are chunked and searched. -/
def tier3Sents (cfg : Config) (search : String → List Nat) :
    List String → List Nat × List String
  | [] => ([], [])
  | s :: ss =>
    let sentence := stripStr s
    let rest := tier3Sents cfg search ss
    if 20 < sentence.length then
      let cres := tier3Chunks cfg search (fuzzyChunks cfg.fuzzy_chunk_size (pyWords sentence))
      (cres.1 ++ rest.1, cres.2 ++ rest.2)
    else rest

/-- `PDFComparerApp.find_text_on_page` (lines 675-729), returning the
found rectangles together with the ordered list of queries submitted
to `page.search_for`.  Tier 1 searches the stripped whole text; tier 2
walks paragraphs and sentences accumulating hits; the fuzzy chunk tier
runs only when `fuzzy` is set and the earlier tiers accumulated
nothing. -/
def find_text_on_page (cfg : Config) (search : String → List Nat) (text0 : String)
    (fuzzy : Bool) : List Nat × List String :=
  let text := stripStr text0
  if text = "" then ([], [])
  else
    let whole := search text
    if whole ≠ [] then (whole, [text])
    else
      let t2 := tier2Paras cfg search (splitLitNlNl text)
      if fuzzy ∧ t2.1 = [] then
        let t3 := tier3Sents cfg search (splitSentences text)
        (t2.1 ++ t3.1, text :: (t2.2 ++ t3.2))
      else (t2.1, text :: t2.2)

/-- The rectangle loop of the line-fallback tier (lines 746-756): `n`
is `len(line_instances)`.  Each iteration annotates its rectangle and
then, because `n > 0` whenever the loop runs at all, returns `True`
from inside the loop — so only the first rectangle is ever annotated.
Returns the annotated rectangles and whether `return True` fired. -/
def perRectLoop (n : Nat) : List Nat → List Nat → List Nat × Bool
  | [], acc => (acc, false)
  | r :: rest, acc =>
    let acc2 := acc ++ [r]
    if 0 < n then (acc2, true) else perRectLoop n rest acc2

/-- The line loop of `highlight_text_on_page` (lines 740-756): lines in
order, only stripped lines longer than `min_meaningful_text_length`
are searched, and the loop returns `True` as soon as a line search
returns any rectangle.  Returns (success, queries, annotated
rectangles). -/
def lineLoop (cfg : Config) (search : String → List Nat) :
    List String → Bool × List String × List Nat
  | [] => (false, [], [])
  | l :: ls =>
    let line := stripStr l
    if cfg.min_meaningful_text_length < line.length then
      let hits := search line
      let pr := perRectLoop hits.length hits []
      if pr.2 then (true, [line], pr.1)
      else
        let rest := lineLoop cfg search ls
        (rest.1, line :: rest.2.1, pr.1 ++ rest.2.2)
    else lineLoop cfg search ls

/-- `PDFComparerApp.highlight_text_on_page` (lines 731-770), returning
(success, ordered queries, ordered annotated rectangles).  The `color`
argument only styles the annotations and does not influence control
flow.  When `find_text_on_page` found instances they are all annotated
and the call succeeds; otherwise the line-fallback loop runs. -/
def highlight_text_on_page (cfg : Config) (search : String → List Nat) (text : String)
    (color : String) (fuzzy : Bool) : Bool × List String × List Nat :=
  if stripStr text = "" then (false, [], [])
  else
    let found := find_text_on_page cfg search text fuzzy
    if found.1 = [] then
      let lr := lineLoop cfg search (splitLines text)
      (lr.1, found.2 ++ lr.2.1, lr.2.2)
    else (true, found.2, found.1)

/-- Modelled from the spec: the configuration validity constraints of
sections 6 and 7 — `exactMatchThreshold ∈ (0,1]`, `fuzzyChunkSize ≥ 1`
(`minMeaningfulTextLength ≥ 0` holds by the `Nat` type).  No code in
`src/PDF_MATCHA.py` checks these constraints anywhere; this predicate
exists to compare the shipped constant and the claimed rejection
behaviour against the spec. -/
def configValid (c : Config) : Prop :=
  0 < c.exact_match_threshold ∧ c.exact_match_threshold ≤ 1 ∧ 1 ≤ c.fuzzy_chunk_size

instance (c : Config) : Decidable (configValid c) := by
  unfold configValid; infer_instance

/-- A configuration whose threshold `2` lies outside `(0,1]`. -/
def invalidConfig : Config := ⟨2, 13, 5, true⟩

/-- Old unit for the metric counterexample. -/
def unitX : ContentUnit := ⟨"abcdefghijX", 0, "origX"⟩

/-- Second old unit for the metric counterexample. -/
def unitY : ContentUnit := ⟨"abcdefghijY", 0, "origY"⟩

/-- New unit for the metric counterexample; its text is close to, but
below the exact-match threshold of, both old units. -/
def unitZ : ContentUnit := ⟨"abcdefghijZ", 0, "origZ"⟩

/-- A unit used to show an invalid configuration is still processed. -/
def unitW : ContentUnit := ⟨"aaaa", 0, "AAAA"⟩

/-- The eight-word text of spec Scenario D. -/
def scenarioDText : String := "alpha beta gamma delta epsilon zeta eta theta"

/-- A page on which no query matches. -/
def emptySearch : String → List Nat := fun _ => []

/-- First line of the Scenario E text. -/
def lineA : String := "aaaa bbbb cccc dddd"

/-- Second line of the Scenario E text — the only matching line. -/
def lineB : String := "eeee ffff gggg hhhh"

/-- Third line of the Scenario E text. -/
def lineC : String := "iiii jjjj kkkk llll"

/-- The three-line text of spec Scenario E. -/
def scenarioEText : String := lineA ++ "\n" ++ lineB ++ "\n" ++ lineC

/-- A page on which exactly the second line matches, with one
rectangle. -/
def searchE : String → List Nat := fun s => if s = lineB then [7] else []

/-- A page on which exactly the second line matches, with three
rectangles. -/
def searchE3 : String → List Nat := fun s => if s = lineB then [3, 4, 5] else []

/-- Two-sentence paragraph used to exhibit the accumulate-all behaviour
of the paragraph/sentence tier. -/
def twoSentText : String := "Aaaa bbbb cccc dddd. Eeee ffff gggg hhhh."

/-- A page on which each of the two sentences matches with its own
rectangle. -/
def searchTwoSent : String → List Nat := fun s =>
  if s = "Aaaa bbbb cccc dddd." then [1]
  else if s = "Eeee ffff gggg hhhh." then [2] else []

/-! ## Bounds for the modelled `SequenceMatcher.ratio` -/

theorem commonLen_le_left (a b : List Char) : commonLen a b ≤ a.length := by
  induction a generalizing b with
  | nil => simp [commonLen]
  | cons c cs ih =>
    cases b with
    | nil => simp [commonLen]
    | cons d ds =>
      unfold commonLen
      split
      · have := ih ds; simpa using Nat.succ_le_succ this
      · simp

theorem commonLen_le_right (a b : List Char) : commonLen a b ≤ b.length := by
  induction a generalizing b with
  | nil => simp [commonLen]
  | cons c cs ih =>
    cases b with
    | nil => simp [commonLen]
    | cons d ds =>
      unfold commonLen
      split
      · have := ih ds; simpa using Nat.succ_le_succ this
      · simp

theorem extLen_le_a (a b : List Char) (ahi bhi i j : Nat) : extLen a b ahi bhi i j ≤ ahi - i := by
  have h := commonLen_le_left ((a.take ahi).drop i) ((b.take bhi).drop j)
  have hlen : ((a.take ahi).drop i).length ≤ ahi - i := by
    simp only [List.length_drop, List.length_take]
    omega
  rw [extLen]
  omega

theorem extLen_le_b (a b : List Char) (ahi bhi i j : Nat) : extLen a b ahi bhi i j ≤ bhi - j := by
  have h := commonLen_le_right ((a.take ahi).drop i) ((b.take bhi).drop j)
  have hlen : ((b.take bhi).drop j).length ≤ bhi - j := by
    simp only [List.length_drop, List.length_take]
    omega
  rw [extLen]
  omega

theorem flm_bounds (a b : List Char) (alo ahi blo bhi : Nat) (ha : alo ≤ ahi) (hb : blo ≤ bhi) :
    alo ≤ (findLongestMatch a b alo ahi blo bhi).1 ∧
    (findLongestMatch a b alo ahi blo bhi).1 + (findLongestMatch a b alo ahi blo bhi).2.2 ≤ ahi ∧
    blo ≤ (findLongestMatch a b alo ahi blo bhi).2.1 ∧
    (findLongestMatch a b alo ahi blo bhi).2.1 + (findLongestMatch a b alo ahi blo bhi).2.2 ≤ bhi := by
  unfold findLongestMatch
  refine @List.foldlRecOn _ _
    (fun t : Nat × Nat × Nat => alo ≤ t.1 ∧ t.1 + t.2.2 ≤ ahi ∧ blo ≤ t.2.1 ∧ t.2.1 + t.2.2 ≤ bhi)
    _ _ _ ?_ ?_
  · refine ⟨?_, ?_, ?_, ?_⟩ <;> dsimp only <;> omega
  · intro acc hacc i hi
    refine @List.foldlRecOn _ _
      (fun t : Nat × Nat × Nat => alo ≤ t.1 ∧ t.1 + t.2.2 ≤ ahi ∧ blo ≤ t.2.1 ∧ t.2.1 + t.2.2 ≤ bhi)
      _ _ _ hacc ?_
    intro acc2 hacc2 j hj
    have hi2 := (List.mem_range'_1).1 hi
    have hj2 := (List.mem_range'_1).1 hj
    have hka := extLen_le_a a b ahi bhi i j
    have hkb := extLen_le_b a b ahi bhi i j
    dsimp only
    split
    · refine ⟨?_, ?_, ?_, ?_⟩ <;> dsimp only <;> omega
    · exact hacc2

theorem matchesSum_le (a b : List Char) :
    ∀ fuel alo ahi blo bhi, alo ≤ ahi → blo ≤ bhi →
      matchesSum a b alo ahi blo bhi fuel ≤ min (ahi - alo) (bhi - blo) := by
  intro fuel
  induction fuel with
  | zero =>
    intro alo ahi blo bhi _ _
    simp [matchesSum]
  | succ n ih =>
    intro alo ahi blo bhi ha hb
    obtain ⟨h1, h2, h3, h4⟩ := flm_bounds a b alo ahi blo bhi ha hb
    unfold matchesSum
    rcases hflm : findLongestMatch a b alo ahi blo bhi with ⟨i, j, k⟩
    rw [hflm] at h1 h2 h3 h4
    dsimp only at h1 h2 h3 h4 ⊢
    split
    · omega
    · have hl := ih alo i blo j (by omega) (by omega)
      have hr := ih (i + k) ahi (j + k) bhi (by omega) (by omega)
      omega

theorem seqMatches_le (s t : String) : 2 * seqMatches s t ≤ s.length + t.length := by
  have h := matchesSum_le s.data t.data (s.data.length + t.data.length + 1) 0 s.data.length
    0 t.data.length (Nat.zero_le _) (Nat.zero_le _)
  have hs : s.length = s.data.length := rfl
  have ht : t.length = t.data.length := rfl
  rw [seqMatches]
  omega

theorem ratioOf_nonneg (s t : String) : 0 ≤ ratioOf s t := by
  rw [ratioOf]
  split
  · norm_num
  · exact Rat.mkRat_nonneg (by positivity) _

theorem ratioOf_le_one (s t : String) : ratioOf s t ≤ 1 := by
  rw [ratioOf]
  split
  · norm_num
  · rename_i h
    rw [Rat.mkRat_eq_div]
    rw [div_le_one (by exact_mod_cast Nat.pos_of_ne_zero h)]
    exact_mod_cast seqMatches_le s t

/-! ## The greedy matching loop: supporting lemmas -/

theorem getD_in_range {α : Type} (l : List α) (d : α) (j : Nat) (h : j < l.length) :
    l.getD j d = l[j] := by
  simp [List.getD_eq_getElem?_getD, List.getElem?_eq_getElem h]

theorem getD_cons_eraseIdx_perm {α : Type} (l : List α) (d : α) (j : Nat) (h : j < l.length) :
    List.Perm (l.getD j d :: l.eraseIdx j) l := by
  rw [getD_in_range l d j h, List.eraseIdx_eq_take_drop_succ]
  have hdrop : l.drop j = l[j] :: l.drop (j + 1) := List.drop_eq_getElem_cons h
  have hperm : List.Perm (l[j] :: (l.take j ++ l.drop (j + 1))) (l.take j ++ l[j] :: l.drop (j + 1)) :=
    (List.perm_middle).symm
  have h2 : l.take j ++ l[j] :: l.drop (j + 1) = l := by rw [← hdrop, List.take_append_drop]
  conv_rhs => rw [← h2]
  exact hperm

theorem cons_eraseIdx_coe {α : Type} (l : List α) (d : α) (j : Nat) (h : j < l.length) :
    ({l.getD j d} : Multiset α) + ↑(l.eraseIdx j) = ↑l := by
  have h2 := (Multiset.coe_eq_coe).2 (getD_cons_eraseIdx_perm l d j h)
  rw [← h2, ← Multiset.cons_coe, ← Multiset.singleton_add]

theorem coeAppend {α : Type} (l1 l2 : List α) : (↑(l1 ++ l2) : Multiset α) = ↑l1 + ↑l2 :=
  (Multiset.coe_add l1 l2).symm

theorem coeConsM {α : Type} (a : α) (l : List α) : (↑(a :: l) : Multiset α) = {a} + ↑l := by
  rw [← Multiset.cons_coe, ← Multiset.singleton_add]

theorem scanNew_inl_lt (sim : String → String → ℚ) (th : ℚ) (t : String) :
    ∀ (l : List ContentUnit) (j0 : Nat) (bi : Int) (bs : ℚ) (j : Nat) (s : ℚ),
      scanNew sim th t l j0 bi bs = Sum.inl (j, s) → j0 ≤ j ∧ j - j0 < l.length := by
  intro l
  induction l with
  | nil =>
    intro j0 bi bs j s h
    simp [scanNew] at h
  | cons u rest ih =>
    intro j0 bi bs j s h
    rw [scanNew] at h
    split at h
    · rw [Sum.inl.injEq, Prod.mk.injEq] at h
      have : j0 = j := h.1
      simp only [List.length_cons]
      omega
    · have h2 := ih (j0 + 1) _ _ j s h
      simp only [List.length_cons]
      omega

theorem scanNew_inl_bounds (sim : String → String → ℚ) (th : ℚ) (t : String)
    (hsim : ∀ a b, 0 ≤ sim a b ∧ sim a b ≤ 1) :
    ∀ (l : List ContentUnit) (j0 : Nat) (bi : Int) (bs : ℚ) (j : Nat) (s : ℚ),
      scanNew sim th t l j0 bi bs = Sum.inl (j, s) → 0 ≤ s ∧ s ≤ 1 := by
  intro l
  induction l with
  | nil =>
    intro j0 bi bs j s h
    simp [scanNew] at h
  | cons u rest ih =>
    intro j0 bi bs j s h
    rw [scanNew] at h
    split at h
    · rw [Sum.inl.injEq, Prod.mk.injEq] at h
      rw [← h.2]
      exact hsim t u.processed
    · exact ih (j0 + 1) _ _ j s h

theorem scanNew_inr_bounds (sim : String → String → ℚ) (th : ℚ) (t : String)
    (hsim : ∀ a b, 0 ≤ sim a b ∧ sim a b ≤ 1) :
    ∀ (l : List ContentUnit) (j0 : Nat) (bi : Int) (bs : ℚ) (bi2 : Int) (bs2 : ℚ),
      scanNew sim th t l j0 bi bs = Sum.inr (bi2, bs2) → 0 ≤ bs → bs ≤ 1 →
      0 ≤ bs2 ∧ bs2 ≤ 1 := by
  intro l
  induction l with
  | nil =>
    intro j0 bi bs bi2 bs2 h h0 h1
    rw [scanNew, Sum.inr.injEq, Prod.mk.injEq] at h
    rw [← h.2]
    exact ⟨h0, h1⟩
  | cons u rest ih =>
    intro j0 bi bs bi2 bs2 h h0 h1
    rw [scanNew] at h
    split at h
    · simp at h
    · refine ih (j0 + 1) _ _ bi2 bs2 h ?_ ?_
      · split
        · exact (hsim t u.processed).1
        · exact h0
      · split
        · exact (hsim t u.processed).2
        · exact h1

theorem matchLoop_invariants (sim : String → String → ℚ) (th : ℚ) :
    ∀ (olds rem unm : List ContentUnit)
      (pairs : List (ContentUnit × ContentUnit × ℚ)) (ex co : List ContentUnit),
      ((matchLoop sim th olds ⟨rem, unm, pairs, ex, co⟩).removed : Multiset ContentUnit)
          + ↑(matchLoop sim th olds ⟨rem, unm, pairs, ex, co⟩).exact_old
        = (rem : Multiset ContentUnit) + ↑ex + ↑olds ∧
      ((matchLoop sim th olds ⟨rem, unm, pairs, ex, co⟩).consumed_new : Multiset ContentUnit)
          + ↑(matchLoop sim th olds ⟨rem, unm, pairs, ex, co⟩).unmatched_new
        = (co : Multiset ContentUnit) + ↑unm := by
  intro olds
  induction olds with
  | nil =>
    intro rem unm pairs ex co
    constructor <;> simp [matchLoop]
  | cons o os ih =>
    intro rem unm pairs ex co
    rcases hscan : scanNew sim th o.processed unm 0 (-1) 0 with ⟨j, s⟩ | ⟨bi, bs⟩
    · have hj : j < unm.length := by
        have := scanNew_inl_lt sim th o.processed unm 0 (-1) 0 j s hscan
        omega
      have herase := cons_eraseIdx_coe unm dummyUnit j hj
      obtain ⟨ih1, ih2⟩ := ih rem (unm.eraseIdx j)
        (pairs ++ [(o, unm.getD j dummyUnit, s)]) (ex ++ [o])
        (co ++ [unm.getD j dummyUnit])
      rw [matchLoop]
      simp only [hscan]
      constructor
      · rw [ih1]
        simp only [coeAppend, coeConsM, Multiset.coe_nil, add_zero]
        abel
      · rw [ih2]
        simp only [coeAppend, coeConsM, Multiset.coe_nil, add_zero]
        rw [← herase]
        abel
    · have hsplit :
        matchLoop sim th (o :: os) ⟨rem, unm, pairs, ex, co⟩ =
          (if 0 ≤ bi ∧ mkRat 7 10 < bs then
            matchLoop sim th os ⟨rem ++ [o], unm,
              pairs ++ [(o, unm.getD bi.toNat dummyUnit, bs)], ex, co⟩
          else matchLoop sim th os ⟨rem ++ [o], unm, pairs, ex, co⟩) := by
        rw [matchLoop]
        simp only [hscan]
      rw [hsplit]
      split
      · obtain ⟨ih1, ih2⟩ := ih (rem ++ [o]) unm
          (pairs ++ [(o, unm.getD bi.toNat dummyUnit, bs)]) ex co
        refine ⟨?_, ih2⟩
        rw [ih1]
        simp only [coeAppend, coeConsM, Multiset.coe_nil, add_zero]
        abel
      · obtain ⟨ih1, ih2⟩ := ih (rem ++ [o]) unm pairs ex co
        refine ⟨?_, ih2⟩
        rw [ih1]
        simp only [coeAppend, coeConsM, Multiset.coe_nil, add_zero]
        abel

theorem matchLoop_pairs_bounds (sim : String → String → ℚ) (th : ℚ)
    (hsim : ∀ a b, 0 ≤ sim a b ∧ sim a b ≤ 1) :
    ∀ (olds : List ContentUnit) (st : MatchState),
      (∀ p ∈ st.matched_pairs, 0 ≤ p.2.2 ∧ p.2.2 ≤ 1) →
      ∀ p ∈ (matchLoop sim th olds st).matched_pairs, 0 ≤ p.2.2 ∧ p.2.2 ≤ 1 := by
  intro olds
  induction olds with
  | nil =>
    intro st hst p hp
    rw [matchLoop] at hp
    exact hst p hp
  | cons o os ih =>
    intro st hst p hp
    obtain ⟨rem, unm, pairs, ex, co⟩ := st
    rcases hscan : scanNew sim th o.processed unm 0 (-1) 0 with ⟨j, s⟩ | ⟨bi, bs⟩
    · have hstep : matchLoop sim th (o :: os) ⟨rem, unm, pairs, ex, co⟩ =
          matchLoop sim th os ⟨rem, unm.eraseIdx j,
            pairs ++ [(o, unm.getD j dummyUnit, s)], ex ++ [o],
            co ++ [unm.getD j dummyUnit]⟩ := by
        rw [matchLoop]
        simp only [hscan]
      rw [hstep] at hp
      refine ih _ ?_ p hp
      intro q hq
      rcases List.mem_append.1 hq with h | h
      · exact hst q h
      · rw [List.mem_singleton] at h
        subst h
        exact scanNew_inl_bounds sim th o.processed hsim _ 0 (-1) 0 j s hscan
    · have hsplit : matchLoop sim th (o :: os) ⟨rem, unm, pairs, ex, co⟩ =
          (if 0 ≤ bi ∧ mkRat 7 10 < bs then
            matchLoop sim th os ⟨rem ++ [o], unm,
              pairs ++ [(o, unm.getD bi.toNat dummyUnit, bs)], ex, co⟩
          else matchLoop sim th os ⟨rem ++ [o], unm, pairs, ex, co⟩) := by
        rw [matchLoop]
        simp only [hscan]
      rw [hsplit] at hp
      split at hp
      · refine ih _ ?_ p hp
        intro q hq
        rcases List.mem_append.1 hq with h | h
        · exact hst q h
        · rw [List.mem_singleton] at h
          subst h
          have := scanNew_inr_bounds sim th o.processed hsim unm 0 (-1) 0 bi bs hscan
            (le_refl 0) (by norm_num)
          exact this
      · exact ih ⟨rem ++ [o], unm, pairs, ex, co⟩ hst p hp

theorem matchLoop_removed_len (sim : String → String → ℚ) (th : ℚ) :
    ∀ (olds : List ContentUnit) (st : MatchState),
      (matchLoop sim th olds st).removed.length ≤ st.removed.length + olds.length := by
  intro olds
  induction olds with
  | nil =>
    intro st
    rw [matchLoop]
    simp
  | cons o os ih =>
    intro st
    obtain ⟨rem, unm, pairs, ex, co⟩ := st
    rcases hscan : scanNew sim th o.processed unm 0 (-1) 0 with ⟨j, s⟩ | ⟨bi, bs⟩
    · have hstep : matchLoop sim th (o :: os) ⟨rem, unm, pairs, ex, co⟩ =
          matchLoop sim th os ⟨rem, unm.eraseIdx j,
            pairs ++ [(o, unm.getD j dummyUnit, s)], ex ++ [o],
            co ++ [unm.getD j dummyUnit]⟩ := by
        rw [matchLoop]
        simp only [hscan]
      rw [hstep]
      have := ih ⟨rem, unm.eraseIdx j, pairs ++ [(o, unm.getD j dummyUnit, s)], ex ++ [o],
        co ++ [unm.getD j dummyUnit]⟩
      simp only [List.length_cons] at this ⊢
      omega
    · have hsplit : matchLoop sim th (o :: os) ⟨rem, unm, pairs, ex, co⟩ =
          (if 0 ≤ bi ∧ mkRat 7 10 < bs then
            matchLoop sim th os ⟨rem ++ [o], unm,
              pairs ++ [(o, unm.getD bi.toNat dummyUnit, bs)], ex, co⟩
          else matchLoop sim th os ⟨rem ++ [o], unm, pairs, ex, co⟩) := by
        rw [matchLoop]
        simp only [hscan]
      rw [hsplit]
      split
      · have := ih ⟨rem ++ [o], unm,
          pairs ++ [(o, unm.getD bi.toNat dummyUnit, bs)], ex, co⟩
        simp only [List.length_cons, List.length_append, List.length_nil] at this ⊢
        omega
      · have := ih ⟨rem ++ [o], unm, pairs, ex, co⟩
        simp only [List.length_cons, List.length_append, List.length_nil] at this ⊢
        omega

/-- Claim C2: for every input `(oldUnits, newUnits)` and any
configuration, the output of `compare_content_units` satisfies both
partition laws as equalities of multisets (disjoint unions): the
`removed` list together with the old units consumed by a threshold
match (the units whose `old_matched[i]` flag the loop sets) is exactly
`oldUnits`, each occurrence classified exactly once; and the new units
consumed by a threshold match (popped from the unmatched-new list)
together with the `added` list is exactly `newUnits`, each occurrence
ending up exactly once as consumed or added. -/
theorem compare_partition_laws (cfg : Config) (old_units new_units : List ContentUnit) :
    ((compare_content_units cfg old_units new_units).removed : Multiset ContentUnit)
        + ↑(matchLoop ratioOf cfg.exact_match_threshold old_units
            ⟨[], new_units, [], [], []⟩).exact_old
      = ↑old_units ∧
    ((matchLoop ratioOf cfg.exact_match_threshold old_units
            ⟨[], new_units, [], [], []⟩).consumed_new : Multiset ContentUnit)
        + ↑(compare_content_units cfg old_units new_units).added
      = ↑new_units := by
  obtain ⟨ha, hb⟩ := matchLoop_invariants ratioOf cfg.exact_match_threshold old_units
    [] new_units [] [] []
  have h1 : (compare_content_units cfg old_units new_units).removed
      = (matchLoop ratioOf cfg.exact_match_threshold old_units
          ⟨[], new_units, [], [], []⟩).removed := rfl
  have h2 : (compare_content_units cfg old_units new_units).added
      = (matchLoop ratioOf cfg.exact_match_threshold old_units
          ⟨[], new_units, [], [], []⟩).unmatched_new := rfl
  rw [h1, h2]
  constructor
  · rw [ha]
    simp
  · rw [hb]
    simp

/-! ## Metrics: ranges and the document-similarity counterexample -/

theorem simSum_bounds (l : List (ContentUnit × ContentUnit × ℚ))
    (h : ∀ p ∈ l, 0 ≤ p.2.2 ∧ p.2.2 ≤ 1) : 0 ≤ simSum l ∧ simSum l ≤ l.length := by
  induction l with
  | nil => simp [simSum]
  | cons p ps ih =>
    have hp := h p (List.mem_cons_self p ps)
    have hps := ih (fun q hq => h q (List.mem_cons_of_mem p hq))
    rw [simSum]
    simp only [List.length_cons]
    push_cast
    constructor <;> linarith [hp.1, hp.2, hps.1, hps.2]

theorem ratio_bounds : ∀ a b, 0 ≤ ratioOf a b ∧ ratioOf a b ≤ 1 :=
  fun a b => ⟨ratioOf_nonneg a b, ratioOf_le_one a b⟩

/-- Claim C1 (amended): for the fixed configuration and every pair of
unit lists, `avg_content_similarity`, `retention_rate` and
`text_similarity` lie in `[0,100]` and `document_similarity` is
nonnegative, but `document_similarity` has no upper bound of `100`
(see the counterexample); the defaults hold as claimed for the three
enumerated zero denominators (no matched pairs, empty old or new
side, empty old-unit list), while `text_similarity` defaults to `100`,
not `0`, when both unit lists are empty (both joined texts are empty
and `SequenceMatcher` rates two empty sequences `1.0`). -/
theorem compare_metric_ranges (old_units new_units : List ContentUnit) :
    (0 ≤ (compare_content_units comparison_config old_units new_units).avg_content_similarity ∧
      (compare_content_units comparison_config old_units new_units).avg_content_similarity ≤ 100) ∧
    (0 ≤ (compare_content_units comparison_config old_units new_units).retention_rate ∧
      (compare_content_units comparison_config old_units new_units).retention_rate ≤ 100) ∧
    (0 ≤ (compare_content_units comparison_config old_units new_units).text_similarity ∧
      (compare_content_units comparison_config old_units new_units).text_similarity ≤ 100) ∧
    0 ≤ (compare_content_units comparison_config old_units new_units).document_similarity ∧
    ((compare_content_units comparison_config old_units new_units).matched_content_pairs = [] →
      (compare_content_units comparison_config old_units new_units).avg_content_similarity = 0) ∧
    (old_units = [] ∨ new_units = [] →
      (compare_content_units comparison_config old_units new_units).document_similarity = 0) ∧
    (old_units = [] →
      (compare_content_units comparison_config old_units new_units).retention_rate = 0) ∧
    (old_units = [] ∧ new_units = [] →
      (compare_content_units comparison_config old_units new_units).text_similarity = 100) := by
  simp only [compare_content_units]
  have hsimb : ∀ p ∈ (matchLoop ratioOf comparison_config.exact_match_threshold old_units
      ⟨[], new_units, [], [], []⟩).matched_pairs, 0 ≤ p.2.2 ∧ p.2.2 ≤ 1 :=
    matchLoop_pairs_bounds ratioOf _ ratio_bounds old_units ⟨[], new_units, [], [], []⟩ (by simp)
  have hrem : (matchLoop ratioOf comparison_config.exact_match_threshold old_units
      ⟨[], new_units, [], [], []⟩).removed.length ≤ old_units.length := by
    have := matchLoop_removed_len ratioOf comparison_config.exact_match_threshold old_units
      ⟨[], new_units, [], [], []⟩
    simpa using this
  obtain ⟨hS0, hS1⟩ := simSum_bounds _ hsimb
  have htxt0 := ratioOf_nonneg (joinSpace (old_units.map ContentUnit.processed))
    (joinSpace (new_units.map ContentUnit.processed))
  have htxt1 := ratioOf_le_one (joinSpace (old_units.map ContentUnit.processed))
    (joinSpace (new_units.map ContentUnit.processed))
  refine ⟨⟨?_, ?_⟩, ⟨?_, ?_⟩, ⟨?_, ?_⟩, ?_, ?_, ?_, ?_, ?_⟩
  · split
    · rename_i h
      have hlen : (0:ℚ) < (matchLoop ratioOf comparison_config.exact_match_threshold old_units
          ⟨[], new_units, [], [], []⟩).matched_pairs.length := by
        exact_mod_cast List.length_pos.2 h
      have := div_nonneg hS0 (le_of_lt hlen)
      linarith
    · norm_num
  · split
    · rename_i h
      have hlen : (0:ℚ) < (matchLoop ratioOf comparison_config.exact_match_threshold old_units
          ⟨[], new_units, [], [], []⟩).matched_pairs.length := by
        exact_mod_cast List.length_pos.2 h
      have hdiv : simSum (matchLoop ratioOf comparison_config.exact_match_threshold old_units
          ⟨[], new_units, [], [], []⟩).matched_pairs /
          ((matchLoop ratioOf comparison_config.exact_match_threshold old_units
            ⟨[], new_units, [], [], []⟩).matched_pairs.length : ℚ) ≤ 1 :=
        (div_le_one hlen).2 hS1
      linarith
    · norm_num
  · split
    · rename_i h
      have h0 : (0:ℚ) < old_units.length := by exact_mod_cast h
      have hnum : (0:ℚ) ≤ (old_units.length : ℚ) -
          (matchLoop ratioOf comparison_config.exact_match_threshold old_units
            ⟨[], new_units, [], [], []⟩).removed.length := by
        have : ((matchLoop ratioOf comparison_config.exact_match_threshold old_units
            ⟨[], new_units, [], [], []⟩).removed.length : ℚ) ≤ old_units.length := by
          exact_mod_cast hrem
        linarith
      have := div_nonneg hnum (le_of_lt h0)
      linarith
    · norm_num
  · split
    · rename_i h
      have h0 : (0:ℚ) < old_units.length := by exact_mod_cast h
      have hr0 : (0:ℚ) ≤ (matchLoop ratioOf comparison_config.exact_match_threshold old_units
          ⟨[], new_units, [], [], []⟩).removed.length := by positivity
      have hdiv : ((old_units.length : ℚ) -
          (matchLoop ratioOf comparison_config.exact_match_threshold old_units
            ⟨[], new_units, [], [], []⟩).removed.length) / (old_units.length : ℚ) ≤ 1 := by
        rw [div_le_one h0]
        linarith
      linarith
    · norm_num
  · linarith
  · linarith
  · split
    · split
      · rename_i h1 h2
        have hm : (0:ℚ) ≤ ((matchLoop ratioOf comparison_config.exact_match_threshold old_units
            ⟨[], new_units, [], [], []⟩).matched_pairs.length : ℚ) := by positivity
        have := div_nonneg hm (le_of_lt h2)
        linarith
      · norm_num
    · norm_num
  · intro h
    rw [if_neg (by simp [h])]
    norm_num
  · intro h
    rcases h with h | h <;> subst h <;> simp
  · intro h
    subst h
    simp
  · intro h
    obtain ⟨h1, h2⟩ := h
    subst h1
    subst h2
    have hr : ratioOf (joinSpace (([] : List ContentUnit).map ContentUnit.processed))
        (joinSpace (([] : List ContentUnit).map ContentUnit.processed)) = 1 := rfl
    rw [hr]
    norm_num

/-- Witness for `compare_metric_ranges` at the concrete input
`([], [])`: the guarded defaults fire and the ranges hold. -/
theorem compare_metric_ranges_witness :
    (compare_content_units comparison_config [] []).document_similarity = 0 ∧
    (compare_content_units comparison_config [] []).retention_rate = 0 ∧
    (compare_content_units comparison_config [] []).avg_content_similarity = 0 ∧
    (compare_content_units comparison_config [] []).text_similarity = 100 ∧
    0 ≤ (compare_content_units comparison_config [] []).text_similarity := by
  obtain ⟨h1, h2, h3, h4, h5, h6, h7, h8⟩ := compare_metric_ranges [] []
  exact ⟨h6 (Or.inl rfl), h7 rfl, h5 (by decide), h8 ⟨rfl, rfl⟩, h3.1⟩

set_option maxRecDepth 40000 in
/-- Claim C1 counterexample: with the fixed configuration, old units
`[unitX, unitY]` and new units `[unitZ]` — both inputs non-empty —
each old unit has `SequenceMatcher` similarity `10/11 ≈ 0.909` to the
single new unit, between `0.7` and the `0.92` threshold, so both
record statistical pairs against the same new unit without consuming
it; `matchedCount = 2` and
`document_similarity = 2 / (2 + 1 - 2) * 100 = 200 > 100`.  Also, on
the empty inputs `([], [])` the text-similarity denominator is zero
yet `text_similarity = 100`, not `0`. -/
theorem document_similarity_exceeds_100 :
    (compare_content_units comparison_config [unitX, unitY] [unitZ]).document_similarity = 200 ∧
    100 < (compare_content_units comparison_config [unitX, unitY]
      [unitZ]).document_similarity ∧
    (compare_content_units comparison_config [] []).text_similarity = 100 := by
  have hst : matchLoop ratioOf comparison_config.exact_match_threshold [unitX, unitY]
      ⟨[], [unitZ], [], [], []⟩ =
      ⟨[unitX, unitY], [unitZ],
        [(unitX, unitZ, mkRat 10 11), (unitY, unitZ, mkRat 10 11)], [], []⟩ := by
    decide
  have hdoc : (compare_content_units comparison_config [unitX, unitY]
      [unitZ]).document_similarity = 200 := by
    simp only [compare_content_units, hst]
    norm_num
  have htxt : (compare_content_units comparison_config [] []).text_similarity = 100 := by
    have hr : ratioOf (joinSpace (([] : List ContentUnit).map ContentUnit.processed))
        (joinSpace (([] : List ContentUnit).map ContentUnit.processed)) = 1 := rfl
    simp only [compare_content_units, hr]
    norm_num
  refine ⟨hdoc, ?_, htxt⟩
  rw [hdoc]
  norm_num

/-! ## Scan order: first qualifying candidate wins; partial matches -/

theorem scanNew_first_match (sim : String → String → ℚ) (th : ℚ) (t : String) :
    ∀ (l : List ContentUnit) (j0 : Nat) (bi : Int) (bs : ℚ) (j : Nat) (h : j < l.length),
      th ≤ sim t (l.get ⟨j, h⟩).processed →
      (∀ i (hi : i < j), sim t (l.get ⟨i, Nat.lt_trans hi h⟩).processed < th) →
      scanNew sim th t l j0 bi bs = Sum.inl (j0 + j, sim t (l.get ⟨j, h⟩).processed) := by
  intro l
  induction l with
  | nil =>
    intro j0 bi bs j h
    exact absurd h (by simp)
  | cons u rest ih =>
    intro j0 bi bs j h hth hfirst
    cases j with
    | zero =>
      rw [scanNew]
      have hth2 : th ≤ sim t u.processed := hth
      rw [if_pos hth2]
      rfl
    | succ k =>
      rw [scanNew]
      have hu : sim t u.processed < th := by
        have := hfirst 0 (Nat.succ_pos k)
        exact this
      rw [if_neg (not_le.2 hu)]
      have hk : k < rest.length := by
        simpa using h
      have hrec := ih (j0 + 1) (if bs < sim t u.processed then (j0 : Int) else bi)
        (if bs < sim t u.processed then sim t u.processed else bs) k hk
        (by simpa using hth)
        (by
          intro i hi
          have := hfirst (i + 1) (Nat.succ_lt_succ hi)
          simpa using this)
      rw [hrec]
      have : j0 + 1 + k = j0 + (k + 1) := by omega
      rw [this]
      simp

/-- Claim C3: for an old unit `o`, when index `j` is the first index of
the current unmatched-new list whose similarity to `o` reaches the
threshold (every earlier index scores strictly below it, while later
indices are unconstrained and may score strictly higher), one step of
the matching loop records the pair `(o, candidate j, that similarity)`,
removes exactly candidate `j` from the unmatched-new list, marks `o`
matched, and continues with the remaining old units over the shortened
list — so no later old unit can ever see the removed candidate. -/
theorem first_qualifying_candidate_wins (sim : String → String → ℚ) (th : ℚ)
    (o : ContentUnit) (olds rem unm : List ContentUnit)
    (pairs : List (ContentUnit × ContentUnit × ℚ)) (ex co : List ContentUnit)
    (j : Nat) (h : j < unm.length)
    (hth : th ≤ sim o.processed (unm.get ⟨j, h⟩).processed)
    (hfirst : ∀ i (hi : i < j), sim o.processed (unm.get ⟨i, Nat.lt_trans hi h⟩).processed < th) :
    matchLoop sim th (o :: olds) ⟨rem, unm, pairs, ex, co⟩ =
      matchLoop sim th olds ⟨rem, unm.eraseIdx j,
        pairs ++ [(o, unm.get ⟨j, h⟩, sim o.processed (unm.get ⟨j, h⟩).processed)],
        ex ++ [o], co ++ [unm.get ⟨j, h⟩]⟩ := by
  have hscan := scanNew_first_match sim th o.processed unm 0 (-1) 0 j h hth hfirst
  rw [Nat.zero_add] at hscan
  rw [matchLoop]
  simp only [hscan]
  rw [getD_in_range unm dummyUnit j h]
  rw [List.get_eq_getElem]

theorem bestFold_no_update (sim : String → String → ℚ) (t : String) :
    ∀ (l : List ContentUnit) (j0 : Nat) (bi : Int) (bs : ℚ),
      (∀ i (hi : i < l.length), sim t (l.get ⟨i, hi⟩).processed ≤ bs) →
      bestFold sim t l j0 bi bs = (bi, bs) := by
  intro l
  induction l with
  | nil =>
    intro j0 bi bs _
    rw [bestFold]
  | cons u rest ih =>
    intro j0 bi bs hall
    rw [bestFold]
    have hu : sim t u.processed ≤ bs := by
      have := hall 0 (Nat.succ_pos rest.length)
      simpa using this
    rw [if_neg (not_lt.2 hu)]
    refine ih (j0 + 1) bi bs ?_
    intro i hi
    have := hall (i + 1) (Nat.succ_lt_succ hi)
    simpa using this

theorem bestFold_first_max (sim : String → String → ℚ) (t : String) :
    ∀ (l : List ContentUnit) (j0 : Nat) (bi : Int) (bs : ℚ) (j : Nat) (h : j < l.length),
      bs < sim t (l.get ⟨j, h⟩).processed →
      (∀ i (hi : i < l.length),
        sim t (l.get ⟨i, hi⟩).processed ≤ sim t (l.get ⟨j, h⟩).processed) →
      (∀ i (hi : i < j),
        sim t (l.get ⟨i, Nat.lt_trans hi h⟩).processed < sim t (l.get ⟨j, h⟩).processed) →
      bestFold sim t l j0 bi bs = (((j0 + j : Nat) : Int), sim t (l.get ⟨j, h⟩).processed) := by
  intro l
  induction l with
  | nil =>
    intro j0 bi bs j h
    exact absurd h (by simp)
  | cons u rest ih =>
    intro j0 bi bs j h hbs hmax hfirst
    cases j with
    | zero =>
      have hbs2 : bs < sim t u.processed := hbs
      rw [bestFold, if_pos hbs2]
      rw [bestFold_no_update sim t rest (j0 + 1) (j0 : Int) (sim t u.processed)
        (by
          intro i hi
          have := hmax (i + 1) (Nat.succ_lt_succ hi)
          exact this)]
      rfl
    | succ k =>
      have hk : k < rest.length := by simpa using h
      have hs : sim t ((u :: rest).get ⟨k + 1, h⟩).processed
          = sim t (rest.get ⟨k, hk⟩).processed := by
        simp
      have hu : sim t u.processed < sim t (rest.get ⟨k, hk⟩).processed := by
        have := hfirst 0 (Nat.succ_pos k)
        rw [hs] at this
        exact this
      rw [bestFold]
      rw [hs] at hbs hmax hfirst ⊢
      have hmax2 : ∀ i (hi : i < rest.length),
          sim t (rest.get ⟨i, hi⟩).processed ≤ sim t (rest.get ⟨k, hk⟩).processed := by
        intro i hi
        have := hmax (i + 1) (Nat.succ_lt_succ hi)
        simpa using this
      have hfirst2 : ∀ i (hi : i < k),
          sim t (rest.get ⟨i, Nat.lt_trans hi hk⟩).processed
            < sim t (rest.get ⟨k, hk⟩).processed := by
        intro i hi
        have := hfirst (i + 1) (Nat.succ_lt_succ hi)
        simpa using this
      split
      · rw [ih (j0 + 1) (j0 : Int) (sim t u.processed) k hk hu hmax2 hfirst2]
        have : j0 + 1 + k = j0 + (k + 1) := by omega
        rw [this]
      · rw [ih (j0 + 1) bi bs k hk hbs hmax2 hfirst2]
        have : j0 + 1 + k = j0 + (k + 1) := by omega
        rw [this]

theorem scanNew_no_threshold (sim : String → String → ℚ) (th : ℚ) (t : String) :
    ∀ (l : List ContentUnit) (j0 : Nat) (bi : Int) (bs : ℚ),
      (∀ i (hi : i < l.length), sim t (l.get ⟨i, hi⟩).processed < th) →
      scanNew sim th t l j0 bi bs = Sum.inr (bestFold sim t l j0 bi bs) := by
  intro l
  induction l with
  | nil =>
    intro j0 bi bs _
    rw [scanNew, bestFold]
  | cons u rest ih =>
    intro j0 bi bs hall
    have hu : sim t u.processed < th := by
      have := hall 0 (Nat.succ_pos rest.length)
      simpa using this
    rw [scanNew, bestFold]
    rw [if_neg (not_le.2 hu)]
    have hall2 : ∀ i (hi : i < rest.length), sim t (rest.get ⟨i, hi⟩).processed < th := by
      intro i hi
      have := hall (i + 1) (Nat.succ_lt_succ hi)
      simpa using this
    split
    · exact ih (j0 + 1) _ _ hall2
    · exact ih (j0 + 1) _ _ hall2

/-- Claim C4: when no candidate in the current unmatched-new list
reaches the threshold for old unit `o`, but the best similarity —
attained first at index `j` (earlier indices strictly below it, all
indices at most it) — exceeds `0.7`, one step of the matching loop
records the statistical pair `(o, candidate j, best similarity)`
(which therefore contributes to `avg_content_similarity`), still
appends `o` to `removed`, and continues with the unmatched-new list
unchanged — the best candidate stays eligible for later old units or
for `added`. -/
theorem partial_match_recorded (sim : String → String → ℚ) (th : ℚ)
    (o : ContentUnit) (olds rem unm : List ContentUnit)
    (pairs : List (ContentUnit × ContentUnit × ℚ)) (ex co : List ContentUnit)
    (j : Nat) (h : j < unm.length)
    (hall : ∀ i (hi : i < unm.length), sim o.processed (unm.get ⟨i, hi⟩).processed < th)
    (hgt : mkRat 7 10 < sim o.processed (unm.get ⟨j, h⟩).processed)
    (hmax : ∀ i (hi : i < unm.length),
      sim o.processed (unm.get ⟨i, hi⟩).processed ≤ sim o.processed (unm.get ⟨j, h⟩).processed)
    (hfirst : ∀ i (hi : i < j),
      sim o.processed (unm.get ⟨i, Nat.lt_trans hi h⟩).processed
        < sim o.processed (unm.get ⟨j, h⟩).processed) :
    matchLoop sim th (o :: olds) ⟨rem, unm, pairs, ex, co⟩ =
      matchLoop sim th olds ⟨rem ++ [o], unm,
        pairs ++ [(o, unm.get ⟨j, h⟩, sim o.processed (unm.get ⟨j, h⟩).processed)],
        ex, co⟩ := by
  have h0 : (0:ℚ) < mkRat 7 10 := by decide
  have hbs : (0:ℚ) < sim o.processed (unm.get ⟨j, h⟩).processed := lt_trans h0 hgt
  have hbest := bestFold_first_max sim o.processed unm 0 (-1) 0 j h hbs hmax hfirst
  have hscan := scanNew_no_threshold sim th o.processed unm 0 (-1) 0 hall
  rw [hbest] at hscan
  rw [matchLoop]
  simp only [hscan]
  rw [if_pos ⟨Int.natCast_nonneg _, hgt⟩]
  have ht : (((0 + j : Nat) : Int)).toNat = j := by simp
  rw [ht, getD_in_range unm dummyUnit j h, List.get_eq_getElem]

set_option maxRecDepth 40000 in
/-- Witness for `first_qualifying_candidate_wins`: with threshold
`1/2`, old text "abcd" and candidates "abxx" (similarity exactly
`1/2`) and "abcd" (similarity `1`, strictly higher but later), the
first candidate wins: its pair is recorded and it is removed from the
pool. -/
theorem first_qualifying_candidate_wins_witness :
    matchLoop ratioOf (mkRat 1 2)
        [⟨"abcd", 0, "o"⟩]
        ⟨[], [⟨"abxx", 0, "c1"⟩, ⟨"abcd", 0, "c2"⟩], [], [], []⟩ =
      matchLoop ratioOf (mkRat 1 2) []
        ⟨[], ([⟨"abxx", 0, "c1"⟩, ⟨"abcd", 0, "c2"⟩] : List ContentUnit).eraseIdx 0,
         [] ++ [(⟨"abcd", 0, "o"⟩,
            ([⟨"abxx", 0, "c1"⟩, ⟨"abcd", 0, "c2"⟩] : List ContentUnit).get ⟨0, by decide⟩,
            ratioOf "abcd" "abxx")],
         [] ++ [⟨"abcd", 0, "o"⟩],
         [] ++ [([⟨"abxx", 0, "c1"⟩, ⟨"abcd", 0, "c2"⟩] : List ContentUnit).get ⟨0, by decide⟩]⟩ :=
  first_qualifying_candidate_wins ratioOf (mkRat 1 2) ⟨"abcd", 0, "o"⟩ [] []
    [⟨"abxx", 0, "c1"⟩, ⟨"abcd", 0, "c2"⟩] [] [] [] 0 (by decide)
    (by decide)
    (fun i hi => absurd hi (Nat.not_lt_zero i))

set_option maxRecDepth 40000 in
/-- Witness for `partial_match_recorded`: with threshold `9/10`, old
text "aaaab" and single candidate "aaaac" (similarity `4/5`, above
`0.7` but below threshold), the statistical pair is recorded, the old
unit is classified removed, and the candidate stays in the pool. -/
theorem partial_match_recorded_witness :
    matchLoop ratioOf (mkRat 9 10)
        [⟨"aaaab", 0, "o"⟩]
        ⟨[], [⟨"aaaac", 0, "c"⟩], [], [], []⟩ =
      matchLoop ratioOf (mkRat 9 10) []
        ⟨[] ++ [⟨"aaaab", 0, "o"⟩], [⟨"aaaac", 0, "c"⟩],
         [] ++ [(⟨"aaaab", 0, "o"⟩,
            ([⟨"aaaac", 0, "c"⟩] : List ContentUnit).get ⟨0, by decide⟩,
            ratioOf "aaaab" "aaaac")],
         [], []⟩ :=
  partial_match_recorded ratioOf (mkRat 9 10) ⟨"aaaab", 0, "o"⟩ [] []
    [⟨"aaaac", 0, "c"⟩] [] [] [] 0 (by decide)
    (by
      intro i hi
      have hlen : i < 1 := by simpa using hi
      have hz : i = 0 := by omega
      subst hz
      show ratioOf "aaaab" "aaaac" < mkRat 9 10
      decide)
    (by decide)
    (by
      intro i hi
      have hlen : i < 1 := by simpa using hi
      have hz : i = 0 := by omega
      subst hz
      show ratioOf "aaaab" "aaaac" ≤ ratioOf "aaaab" "aaaac"
      exact le_refl _)
    (fun i hi => absurd hi (Nat.not_lt_zero i))

/-! ## Configuration: the hardcoded constant and the absence of validation -/

set_option maxRecDepth 40000 in
/-- Claim C5 counterexample: nothing in the code validates the
configuration — there is no rejection path anywhere in the source.
With the invalid threshold `2` (outside `(0,1]`) the comparison
proceeds to completion rather than failing at configuration time: on
`([unitW], [unitW])` (two identical units, whose similarity `1` is
below the impossible threshold) the run returns a fully populated
result, recording a statistical pair and classifying the unit as both
removed and added. -/
theorem invalid_config_not_rejected :
    ¬ configValid invalidConfig ∧
    (compare_content_units invalidConfig [unitW] [unitW]).removed = [unitW] ∧
    (compare_content_units invalidConfig [unitW] [unitW]).added = [unitW] ∧
    (compare_content_units invalidConfig [unitW] [unitW]).matched_content_pairs
      = [(unitW, unitW, 1)] := by
  have hst : matchLoop ratioOf invalidConfig.exact_match_threshold [unitW]
      ⟨[], [unitW], [], [], []⟩ =
      ⟨[unitW], [unitW], [(unitW, unitW, 1)], [], []⟩ := by
    decide
  refine ⟨by decide, ?_, ?_, ?_⟩ <;> simp only [compare_content_units, hst]

/-- Claim C5 (amended): the source never validates the comparison
configuration: there is no rejection path, and the matcher processes
units under every configuration, valid or not (the counterexample
theorem shows a completed run with threshold `2`).  The configuration
actually used is the hardcoded constant of `__init__`, and that
constant does satisfy the spec's validity constraints. -/
theorem config_never_validated :
    configValid comparison_config ∧
    ∀ (cfg : Config) (old_units new_units : List ContentUnit),
      (compare_content_units cfg old_units new_units).removed.length ≤ old_units.length := by
  constructor
  · decide
  · intro cfg old_units new_units
    have := matchLoop_removed_len ratioOf cfg.exact_match_threshold old_units
      ⟨[], new_units, [], [], []⟩
    simpa using this

/-! ## Content-unit extraction -/

theorem paragraphUnits_mem (cfg : Config) (p0 : Nat) (t : String) (u : ContentUnit) :
    u ∈ paragraphUnits cfg p0 t ↔
      u.page_num = p0 ∧ u.original ∈ splitParagraphs t ∧
      u.processed = preprocess_text cfg u.original ∧
      u.processed ≠ "" ∧ cfg.min_meaningful_text_length < u.processed.length := by
  obtain ⟨up, un, uo⟩ := u
  rw [paragraphUnits, List.mem_filterMap]
  constructor
  · rintro ⟨par, hpar, hu⟩
    dsimp only at hu
    by_cases hcond : preprocess_text cfg par ≠ "" ∧
        cfg.min_meaningful_text_length < (preprocess_text cfg par).length
    · rw [if_pos hcond, Option.some.injEq, ContentUnit.mk.injEq] at hu
      obtain ⟨h1, h2, h3⟩ := hu
      subst h1
      subst h2
      subst h3
      exact ⟨rfl, hpar, rfl, hcond.1, hcond.2⟩
    · rw [if_neg hcond] at hu
      exact absurd hu (by simp)
  · rintro ⟨hpage, hpar, hproc, hne, hlen⟩
    dsimp only at hpage hpar hproc hne hlen
    refine ⟨uo, hpar, ?_⟩
    dsimp only
    rw [← hproc]
    rw [if_pos ⟨hne, hlen⟩]
    rw [hpage]

theorem extractFrom_mem (cfg : Config) :
    ∀ (pages : List String) (p0 : Nat) (u : ContentUnit),
      u ∈ extractFrom cfg p0 pages ↔
        ∃ i, i < pages.length ∧ u.page_num = p0 + i ∧
          u.original ∈ splitParagraphs (pages.getD i "") ∧
          u.processed = preprocess_text cfg u.original ∧
          u.processed ≠ "" ∧ cfg.min_meaningful_text_length < u.processed.length := by
  intro pages
  induction pages with
  | nil =>
    intro p0 u
    simp [extractFrom]
  | cons t ts ih =>
    intro p0 u
    rw [extractFrom, List.mem_append, paragraphUnits_mem, ih (p0 + 1) u]
    constructor
    · rintro (⟨hpage, hpar, hproc, hne, hlen⟩ | ⟨i, hi, hpage, hpar, hproc, hne, hlen⟩)
      · exact ⟨0, by simp, by simpa using hpage, by simpa using hpar, hproc, hne, hlen⟩
      · refine ⟨i + 1, by simpa using hi, by omega, by simpa using hpar, hproc, hne, hlen⟩
    · rintro ⟨i, hi, hpage, hpar, hproc, hne, hlen⟩
      cases i with
      | zero =>
        exact Or.inl ⟨by simpa using hpage, by simpa using hpar, hproc, hne, hlen⟩
      | succ k =>
        refine Or.inr ⟨k, by simpa using hi, by omega, by simpa using hpar, hproc, hne, hlen⟩

/-- Claim C7: a unit is emitted by `extract_content_units` exactly when
it comes from a paragraph of some page `i` (in the page-split of that
page's text), carries that page index, carries the normalized text of
its own original paragraph, that normalized text is non-empty, and its
length strictly exceeds `min_meaningful_text_length` — so candidates
whose normalized length is at most the minimum are discarded. -/
theorem extract_content_units_mem (cfg : Config) (text_by_page : List String) (u : ContentUnit) :
    u ∈ extract_content_units cfg text_by_page ↔
      ∃ i, i < text_by_page.length ∧ u.page_num = i ∧
        u.original ∈ splitParagraphs (text_by_page.getD i "") ∧
        u.processed = preprocess_text cfg u.original ∧
        u.processed ≠ "" ∧
        cfg.min_meaningful_text_length < u.processed.length := by
  have h := extractFrom_mem cfg text_by_page 0 u
  simpa [extract_content_units] using h

/-! ## Locator tiers: fuzzy chunk windows and the line fallback -/

/-- Claim C8: every chunk the fuzzy tier can search is the space-join
of a window of exactly `fuzzy_chunk_size` consecutive words starting
at a word index that is a multiple of the chunk size, and a window
starting at `i` exists only when `i + chunk_size` does not exceed the
word count (trailing partial windows are dropped).  In spec Scenario D
(the eight-word text with chunk size 5, no hits anywhere, fuzzy
enabled), the chunk list is exactly the first five-word window, the
queries submitted are the whole text (tier 1), the paragraph and its
single sentence (tier 2) and that one window — and the trailing
three-word remainder is never submitted. -/
theorem fuzzy_chunk_windows :
    (∀ (cs : Nat) (ws : List String), 1 ≤ cs → ∀ c ∈ fuzzyChunks cs ws,
      ∃ i, i % cs = 0 ∧ i + cs ≤ ws.length ∧ c = joinSpace ((ws.drop i).take cs)) ∧
    fuzzyChunks 5 (pyWords scenarioDText) = ["alpha beta gamma delta epsilon"] ∧
    (find_text_on_page comparison_config emptySearch scenarioDText true).2 =
      [scenarioDText, scenarioDText, scenarioDText, "alpha beta gamma delta epsilon"] ∧
    "zeta eta theta" ∉ (find_text_on_page comparison_config emptySearch scenarioDText true).2 := by
  refine ⟨?_, by decide, by decide, by decide⟩
  intro cs ws hcs c hc
  rw [fuzzyChunks, List.mem_map] at hc
  obtain ⟨i, hi, hc⟩ := hc
  rw [List.mem_filter] at hi
  obtain ⟨hir, hile⟩ := hi
  rw [List.mem_range'] at hir
  obtain ⟨m, hm, hieq⟩ := hir
  refine ⟨i, ?_, by simpa using hile, hc.symm⟩
  subst hieq
  simp [Nat.mul_mod_right]

/-- Witness for `fuzzy_chunk_windows`: the single Scenario D chunk is
the window of the first five words, starting at index 0. -/
theorem fuzzy_chunk_windows_witness :
    ∃ i, i % 5 = 0 ∧ i + 5 ≤ (pyWords scenarioDText).length ∧
      "alpha beta gamma delta epsilon" = joinSpace (((pyWords scenarioDText).drop i).take 5) :=
  fuzzy_chunk_windows.1 5 (pyWords scenarioDText) (by decide)
    "alpha beta gamma delta epsilon" (by decide)

/-- Claim C9: spec Scenario E — on the three-line text where only the
second line matches, the whole-text, paragraph, sentence and fuzzy
chunk queries all miss, then the line fallback queries the first line
(long enough, no hit) and the second line (hit), reports success, and
never queries the third line; the full ordered query log is listed.
In contrast, the paragraph/sentence tier accumulates across all
sentences and does not stop at its first hit: on the two-sentence
paragraph where both sentences match, it returns both rectangles. -/
theorem line_fallback_short_circuits :
    (highlight_text_on_page comparison_config searchE scenarioEText "red" true).1 = true ∧
    (highlight_text_on_page comparison_config searchE scenarioEText "red" true).2.1 =
      [scenarioEText, scenarioEText, scenarioEText,
       "aaaa bbbb cccc dddd eeee", "ffff gggg hhhh iiii jjjj", lineA, lineB] ∧
    lineC ∉ (highlight_text_on_page comparison_config searchE scenarioEText "red" true).2.1 ∧
    (highlight_text_on_page comparison_config searchE scenarioEText "red" true).2.2 = [7] ∧
    (find_text_on_page comparison_config searchTwoSent twoSentText true).1 = [1, 2] :=
  ⟨by decide, by decide, by decide, by decide, by decide⟩

/-- Claim C10: in the line-fallback tier, the per-rectangle loop
annotates a rectangle and then immediately returns `True` (the
`len(line_instances) > 0` test inside the loop always holds once the
loop runs), so for any non-empty rectangle list exactly the first
rectangle is annotated and the remaining ones never are; concretely,
when the matching line of Scenario E returns the three rectangles
`[3, 4, 5]`, the highlight call annotates only rectangle `3` and
reports success. -/
theorem line_fallback_annotates_first_rect_only :
    (∀ (acc : List Nat) (r : Nat) (rest : List Nat),
      perRectLoop (rest.length + 1) (r :: rest) acc = (acc ++ [r], true)) ∧
    (highlight_text_on_page comparison_config searchE3 scenarioEText "red" true).2.2 = [3] ∧
    (highlight_text_on_page comparison_config searchE3 scenarioEText "red" true).1 = true := by
  refine ⟨?_, by decide, by decide⟩
  intro acc r rest
  rw [perRectLoop]
  rw [if_pos (Nat.succ_pos rest.length)]

/-! ## Idempotence of the text normalizer: whitespace structure -/

theorem wsOK_collapseWSAux : ∀ (l : List Char) (b : Bool), wsOK b (collapseWSAux b l) := by
  intro l
  induction l with
  | nil =>
    intro b
    rw [collapseWSAux]
    trivial
  | cons c cs ih =>
    intro b
    rw [collapseWSAux]
    by_cases h : isSpace c = true
    · rw [if_pos h]
      cases b with
      | true => exact ih true
      | false =>
        rw [if_neg (by decide : ¬ (false = true))]
        rw [wsOK]
        refine ⟨?_, ?_⟩
        · intro _
          exact ⟨rfl, rfl⟩
        · have : isSpace ' ' = true := by decide
          rw [this]
          exact ih true
    · rw [if_neg h]
      rw [wsOK]
      refine ⟨fun hc => absurd hc h, ?_⟩
      have : isSpace c = false := by
        cases hsc : isSpace c
        · rfl
        · exact absurd hsc h
      rw [this]
      exact ih false

theorem collapseWSAux_eq_self : ∀ (l : List Char) (b : Bool), wsOK b l → collapseWSAux b l = l := by
  intro l
  induction l with
  | nil =>
    intro b _
    rw [collapseWSAux]
  | cons c cs ih =>
    intro b hok
    rw [wsOK] at hok
    obtain ⟨h1, h2⟩ := hok
    rw [collapseWSAux]
    by_cases h : isSpace c = true
    · obtain ⟨hc, hb⟩ := h1 h
      subst hc
      subst hb
      rw [if_pos h, if_neg (by decide : ¬ (false = true))]
      rw [h] at h2
      rw [ih true h2]
    · rw [if_neg h]
      have hfalse : isSpace c = false := by
        cases hsc : isSpace c
        · rfl
        · exact absurd hsc h
      rw [hfalse] at h2
      rw [ih false h2]

theorem wsOK_of_true (l : List Char) (h : wsOK true l) : wsOK false l := by
  cases l with
  | nil => trivial
  | cons c cs =>
    rw [wsOK] at h ⊢
    obtain ⟨h1, h2⟩ := h
    refine ⟨?_, h2⟩
    intro hc
    obtain ⟨hsp, hb⟩ := h1 hc
    exact absurd hb (by decide)

theorem wsOK_ltrim (l : List Char) (h : wsOK false l) : wsOK false (ltrim l) := by
  cases l with
  | nil => trivial
  | cons c cs =>
    rw [wsOK] at h
    obtain ⟨h1, h2⟩ := h
    by_cases hs : isSpace c = true
    · obtain ⟨hsp, -⟩ := h1 hs
      subst hsp
      rw [hs] at h2
      rw [ltrim, List.dropWhile_cons, if_pos hs]
      cases cs with
      | nil => trivial
      | cons d ds =>
        rw [wsOK] at h2
        obtain ⟨h3, h4⟩ := h2
        have hd : isSpace d = false := by
          cases hsd : isSpace d
          · rfl
          · obtain ⟨-, hb⟩ := h3 hsd
            exact absurd hb (by decide)
        rw [List.dropWhile_cons, if_neg (by rw [hd]; decide)]
        rw [wsOK]
        refine ⟨fun hc => absurd hc (by rw [hd]; decide), ?_⟩
        rw [hd] at h4 ⊢
        exact h4
    · have hf : isSpace c = false := by
        cases hsc : isSpace c
        · rfl
        · exact absurd hsc hs
      rw [ltrim, List.dropWhile_cons, if_neg (by rw [hf]; decide)]
      rw [wsOK]
      exact ⟨h1, h2⟩

theorem wsOK_rtrim : ∀ (l : List Char) (b : Bool), wsOK b l → wsOK b (rtrim l) := by
  intro l
  induction l with
  | nil =>
    intro b _
    rw [rtrim]
    trivial
  | cons c cs ih =>
    intro b hok
    rw [wsOK] at hok
    obtain ⟨h1, h2⟩ := hok
    rw [rtrim]
    cases hr : rtrim cs with
    | nil =>
      by_cases hs : isSpace c = true
      · rw [if_pos hs]
        trivial
      · rw [if_neg hs]
        rw [wsOK]
        exact ⟨h1, trivial⟩
    | cons d ds =>
      have := ih (isSpace c) h2
      rw [hr] at this
      rw [wsOK]
      exact ⟨h1, this⟩

theorem rtrim_idem : ∀ l : List Char, rtrim (rtrim l) = rtrim l := by
  intro l
  induction l with
  | nil => rfl
  | cons c cs ih =>
    rw [rtrim]
    cases hr : rtrim cs with
    | nil =>
      by_cases hs : isSpace c = true
      · rw [if_pos hs]
        rfl
      · rw [if_neg hs]
        rw [rtrim, rtrim]
        rw [if_neg hs]
    | cons d ds =>
      rw [hr] at ih
      conv_lhs => rw [rtrim]
      rw [ih]

theorem rtrim_eq_nil_ltrim : ∀ l : List Char, rtrim l = [] → ltrim l = [] := by
  intro l
  induction l with
  | nil => intro _; rfl
  | cons c cs ih =>
    intro h
    rw [rtrim] at h
    cases hr : rtrim cs with
    | nil =>
      rw [hr] at h
      by_cases hs : isSpace c = true
      · rw [ltrim, List.dropWhile_cons, if_pos hs]
        exact ih hr
      · rw [if_neg hs] at h
        exact absurd h (by simp)
    | cons d ds =>
      rw [hr] at h
      exact absurd h (by simp)

theorem dropWhile_idem {α : Type} (p : α → Bool) : ∀ l : List α,
    List.dropWhile p (List.dropWhile p l) = List.dropWhile p l := by
  intro l
  induction l with
  | nil => rfl
  | cons c cs ih =>
    rw [List.dropWhile_cons]
    by_cases h : p c = true
    · rw [if_pos h]
      exact ih
    · rw [if_neg h]
      rw [List.dropWhile_cons, if_neg h]

theorem ltrim_idem (l : List Char) : ltrim (ltrim l) = ltrim l :=
  dropWhile_idem isSpace l

theorem rtrim_cons_nil (c : Char) (cs : List Char) (hr : rtrim cs = []) :
    rtrim (c :: cs) = if isSpace c then [] else [c] := by
  rw [rtrim, hr]

theorem rtrim_cons_cons (c : Char) (cs : List Char) (d : Char) (ds : List Char)
    (hr : rtrim cs = d :: ds) : rtrim (c :: cs) = c :: d :: ds := by
  rw [rtrim, hr]

theorem ltrim_cons_space (c : Char) (cs : List Char) (hs : isSpace c = true) :
    ltrim (c :: cs) = ltrim cs := by
  rw [ltrim, List.dropWhile_cons, if_pos hs, ltrim]

theorem ltrim_cons_nospace (c : Char) (cs : List Char) (hf : isSpace c = false) :
    ltrim (c :: cs) = c :: cs := by
  rw [ltrim, List.dropWhile_cons, if_neg (by rw [hf]; decide)]

theorem ltrim_rtrim_comm : ∀ l : List Char, ltrim (rtrim l) = rtrim (ltrim l) := by
  intro l
  induction l with
  | nil => rfl
  | cons c cs ih =>
    by_cases hs : isSpace c = true
    · cases hr : rtrim cs with
      | nil =>
        rw [rtrim_cons_nil c cs hr, if_pos hs, ltrim_cons_space c cs hs]
        have h2 : rtrim (ltrim cs) = [] := by
          rw [← ih, hr]
          rfl
        rw [h2]
        rfl
      | cons d ds =>
        rw [rtrim_cons_cons c cs d ds hr, ltrim_cons_space c _ hs,
          ltrim_cons_space c cs hs, ← ih, hr]
    · have hf : isSpace c = false := by
        cases hsc : isSpace c
        · rfl
        · exact absurd hsc hs
      cases hr : rtrim cs with
      | nil =>
        rw [rtrim_cons_nil c cs hr, if_neg hs, ltrim_cons_nospace c [] hf,
          ltrim_cons_nospace c cs hf, rtrim_cons_nil c cs hr, if_neg hs]
      | cons d ds =>
        rw [rtrim_cons_cons c cs d ds hr, ltrim_cons_nospace c _ hf,
          ltrim_cons_nospace c cs hf, rtrim_cons_cons c cs d ds hr]

theorem pyStrip_idem (l : List Char) : pyStrip (pyStrip l) = pyStrip l := by
  rw [pyStrip, pyStrip]
  rw [ltrim_rtrim_comm (ltrim l)]
  rw [ltrim_idem]
  exact rtrim_idem (ltrim l)

/-! ## Idempotence of the text normalizer: character membership -/

theorem map_id_of {α : Type} (f : α → α) : ∀ (l : List α), (∀ c ∈ l, f c = c) → l.map f = l := by
  intro l
  induction l with
  | nil => intro _; rfl
  | cons c cs ih =>
    intro h
    rw [List.map_cons, h c (List.mem_cons_self c cs), ih (fun d hd => h d (List.mem_cons_of_mem c hd))]

theorem mem_collapseWSAux : ∀ (l : List Char) (b : Bool) (c : Char),
    c ∈ collapseWSAux b l → c = ' ' ∨ c ∈ l := by
  intro l
  induction l with
  | nil =>
    intro b c h
    rw [collapseWSAux] at h
    exact absurd h (by simp)
  | cons d ds ih =>
    intro b c h
    rw [collapseWSAux] at h
    split at h
    · split at h
      · rcases ih true c h with h2 | h2
        · exact Or.inl h2
        · exact Or.inr (List.mem_cons_of_mem d h2)
      · rcases List.mem_cons.1 h with h2 | h2
        · exact Or.inl h2
        · rcases ih true c h2 with h3 | h3
          · exact Or.inl h3
          · exact Or.inr (List.mem_cons_of_mem d h3)
    · rcases List.mem_cons.1 h with h2 | h2
      · exact Or.inr (h2 ▸ List.mem_cons_self d ds)
      · rcases ih false c h2 with h3 | h3
        · exact Or.inl h3
        · exact Or.inr (List.mem_cons_of_mem d h3)

theorem mem_ltrim (l : List Char) (c : Char) (h : c ∈ ltrim l) : c ∈ l :=
  (List.dropWhile_sublist isSpace).subset h

theorem mem_rtrim : ∀ (l : List Char) (c : Char), c ∈ rtrim l → c ∈ l := by
  intro l
  induction l with
  | nil =>
    intro c h
    rw [rtrim] at h
    exact absurd h (by simp)
  | cons d ds ih =>
    intro c h
    rcases hr : rtrim ds with _ | ⟨e, es⟩
    · rw [rtrim_cons_nil d ds hr] at h
      by_cases hs : isSpace d = true
      · rw [if_pos hs] at h
        exact absurd h (by simp)
      · rw [if_neg hs] at h
        rw [List.mem_singleton] at h
        exact h ▸ List.mem_cons_self d ds
    · rw [rtrim_cons_cons d ds e es hr] at h
      rcases List.mem_cons.1 h with h2 | h2
      · exact h2 ▸ List.mem_cons_self d ds
      · rw [← hr] at h2
        exact List.mem_cons_of_mem d (ih c h2)

theorem mem_pyStrip (l : List Char) (c : Char) (h : c ∈ pyStrip l) : c ∈ l := by
  rw [pyStrip] at h
  exact mem_ltrim l c (mem_rtrim (ltrim l) c h)

theorem mem_punctToSpace (l : List Char) (c : Char) (h : c ∈ punctToSpace l) :
    c = ' ' ∨ (c ∈ l ∧ isPunct c = false) := by
  rw [punctToSpace, List.mem_map] at h
  obtain ⟨d, hd, hc⟩ := h
  by_cases hp : isPunct d = true
  · rw [if_pos hp] at hc
    exact Or.inl hc.symm
  · rw [if_neg hp] at hc
    subst hc
    refine Or.inr ⟨hd, ?_⟩
    cases hpd : isPunct d
    · rfl
    · exact absurd hpd hp

theorem mem_toLowerStr (l : List Char) (c : Char) (h : c ∈ toLowerStr l) :
    ∃ d ∈ l, c = d.toLower := by
  rw [toLowerStr, List.mem_map] at h
  obtain ⟨d, hd, hc⟩ := h
  exact ⟨d, hd, hc.symm⟩

theorem startsWith_mem : ∀ (pat l : List Char), startsWith pat l = true → ∀ x ∈ pat, x ∈ l := by
  intro pat
  induction pat with
  | nil =>
    intro l _ x hx
    exact absurd hx (by simp)
  | cons p ps ih =>
    intro l h x hx
    cases l with
    | nil =>
      rw [startsWith] at h
      exact absurd h (by decide)
    | cons c cs =>
      rw [startsWith, Bool.and_eq_true] at h
      obtain ⟨h1, h2⟩ := h
      rcases List.mem_cons.1 hx with h3 | h3
      · have : p = c := by
          have := of_decide_eq_true h1
          exact this
        subst h3
        exact this ▸ List.mem_cons_self c cs
      · exact List.mem_cons_of_mem c (ih cs h2 x h3)

theorem mem_pyReplace : ∀ (fuel : Nat) (pat rep l : List Char) (c : Char),
    c ∈ pyReplace pat rep fuel l → c ∈ rep ∨ c ∈ l := by
  intro fuel
  induction fuel with
  | zero =>
    intro pat rep l c h
    cases l with
    | nil =>
      rw [pyReplace] at h
      exact absurd h (by simp)
    | cons d ds =>
      rw [pyReplace] at h
      exact Or.inr h
  | succ n ih =>
    intro pat rep l c h
    cases l with
    | nil =>
      rw [pyReplace] at h
      exact absurd h (by simp)
    | cons d ds =>
      rw [pyReplace] at h
      split at h
      · rcases List.mem_append.1 h with h2 | h2
        · exact Or.inl h2
        · rcases ih pat rep ((d :: ds).drop pat.length) c h2 with h3 | h3
          · exact Or.inl h3
          · exact Or.inr (List.mem_of_mem_drop h3)
      · rcases List.mem_cons.1 h with h2 | h2
        · exact Or.inr (h2 ▸ List.mem_cons_self d ds)
        · rcases ih pat rep ds c h2 with h3 | h3
          · exact Or.inl h3
          · exact Or.inr (List.mem_cons_of_mem d h3)

theorem mem_applyRepl : ∀ (table : List (List Char × List Char)) (l : List Char) (c : Char),
    c ∈ applyRepl table l → c ∈ l ∨ ∃ pr ∈ table, c ∈ pr.2 := by
  intro table
  induction table with
  | nil =>
    intro l c h
    rw [applyRepl] at h
    exact Or.inl h
  | cons pr prs ih =>
    intro l c h
    rw [applyRepl] at h
    rcases ih _ c h with h2 | h2
    · rcases mem_pyReplace l.length pr.1 pr.2 l c h2 with h3 | h3
      · exact Or.inr ⟨pr, List.mem_cons_self pr prs, h3⟩
      · exact Or.inl h3
    · obtain ⟨q, hq, hcq⟩ := h2
      exact Or.inr ⟨q, List.mem_cons_of_mem pr hq, hcq⟩

theorem not_mem_pyReplace_single : ∀ (l : List Char) (a : Char) (rep : List Char),
    a ∉ rep → a ∉ pyReplace [a] rep l.length l := by
  intro l
  induction l with
  | nil =>
    intro a rep _
    rw [List.length_nil, pyReplace]
    simp
  | cons c rest ih =>
    intro a rep hrep
    rw [List.length_cons, pyReplace]
    by_cases hstart : startsWith [a] (c :: rest) = true
    · rw [if_pos hstart]
      intro hmem
      rcases List.mem_append.1 hmem with h2 | h2
      · exact hrep h2
      · have hdrop : (c :: rest).drop ([a] : List Char).length = rest := by simp
        rw [hdrop] at h2
        exact ih a rep hrep h2
    · rw [if_neg hstart]
      intro hmem
      have hne : a ≠ c := by
        intro he
        apply hstart
        rw [startsWith, startsWith]
        subst he
        simp
      rcases List.mem_cons.1 hmem with h2 | h2
      · exact hne h2
      · exact ih a rep hrep h2

theorem pyReplace_id : ∀ (l pat rep : List Char) (x : Char),
    x ∈ pat → x ∉ l → pyReplace pat rep l.length l = l := by
  intro l
  induction l with
  | nil =>
    intro pat rep x _ _
    rw [List.length_nil, pyReplace]
  | cons c rest ih =>
    intro pat rep x hx hnx
    rw [List.length_cons, pyReplace]
    have hstart : ¬ startsWith pat (c :: rest) = true := by
      intro hs
      exact hnx (startsWith_mem pat (c :: rest) hs x hx)
    rw [if_neg hstart]
    rw [ih pat rep x hx (fun h => hnx (List.mem_cons_of_mem c h))]

theorem applyRepl_preserve_not_mem (table : List (List Char × List Char)) (l : List Char)
    (a : Char) (hl : a ∉ l) (hrep : ∀ pr ∈ table, a ∉ pr.2) : a ∉ applyRepl table l := by
  intro hmem
  rcases mem_applyRepl table l a hmem with h | ⟨pr, hpr, hcpr⟩
  · exact hl h
  · exact hrep pr hpr hcpr

theorem applyRepl_removes : ∀ (table : List (List Char × List Char)) (l : List Char) (a : Char),
    (∃ pr ∈ table, pr.1 = [a]) → (∀ pr ∈ table, a ∉ pr.2) → a ∉ applyRepl table l := by
  intro table
  induction table with
  | nil =>
    intro l a hex _
    obtain ⟨pr, hpr, -⟩ := hex
    exact absurd hpr (by simp)
  | cons pr prs ih =>
    intro l a hex hrep
    rw [applyRepl]
    obtain ⟨q, hq, hq1⟩ := hex
    rcases List.mem_cons.1 hq with h2 | h2
    · subst h2
      have hinner : a ∉ pyReplace q.1 q.2 l.length l := by
        rw [hq1]
        exact not_mem_pyReplace_single l a q.2 (hrep q (List.mem_cons_self q prs))
      exact applyRepl_preserve_not_mem prs _ a hinner
        (fun r hr => hrep r (List.mem_cons_of_mem q hr))
    · exact ih _ a ⟨q, h2, hq1⟩ (fun r hr => hrep r (List.mem_cons_of_mem pr hr))

theorem applyRepl_id : ∀ (table : List (List Char × List Char)) (l : List Char),
    (∀ pr ∈ table, ∃ x ∈ pr.1, x ∉ l) → applyRepl table l = l := by
  intro table
  induction table with
  | nil =>
    intro l _
    rw [applyRepl]
  | cons pr prs ih =>
    intro l h
    rw [applyRepl]
    obtain ⟨x, hx, hnx⟩ := h pr (List.mem_cons_self pr prs)
    rw [pyReplace_id l pr.1 pr.2 x hx hnx]
    exact ih l (fun q hq => h q (List.mem_cons_of_mem pr hq))

theorem toLower_idem (c : Char) : Char.toLower (Char.toLower c) = Char.toLower c := by
  unfold Char.toLower
  by_cases h : c.toNat ≥ 65 ∧ c.toNat ≤ 90
  · rw [if_pos h]
    have hval : Nat.isValidChar (c.toNat + 32) := Or.inl (by omega)
    have htn : (Char.ofNat (c.toNat + 32)).toNat = c.toNat + 32 := by
      rw [Char.ofNat]
      rw [dif_pos hval]
      rfl
    rw [htn]
    rw [if_neg (by omega)]
  · rw [if_neg h, if_neg h]

/-! ## Idempotence of the text normalizer: assembly -/

theorem mem_pipeline (w : List Char) (c : Char)
    (h : c ∈ pyStrip (collapseWS (punctToSpace (collapseWS w)))) : c = ' ' ∨ c ∈ w := by
  have h1 := mem_pyStrip _ c h
  rcases mem_collapseWSAux (punctToSpace (collapseWS w)) false c h1 with h2 | h2
  · exact Or.inl h2
  · rcases mem_punctToSpace _ c h2 with h3 | ⟨h3, -⟩
    · exact Or.inl h3
    · rcases mem_collapseWSAux w false c h3 with h4 | h4
      · exact Or.inl h4
      · exact Or.inr h4

theorem mem_pipeline_punct (w : List Char) (c : Char)
    (h : c ∈ pyStrip (collapseWS (punctToSpace (collapseWS w)))) : isPunct c = false := by
  have h1 := mem_pyStrip _ c h
  rcases mem_collapseWSAux (punctToSpace (collapseWS w)) false c h1 with h2 | h2
  · subst h2
    decide
  · rcases mem_punctToSpace _ c h2 with h3 | ⟨-, h3⟩
    · subst h3
      decide
    · exact h3

theorem wsOK_strip_collapse (q : List Char) : wsOK false (pyStrip (collapseWS q)) := by
  rw [pyStrip]
  exact wsOK_rtrim _ false (wsOK_ltrim _ (wsOK_collapseWSAux q false))

theorem pipeline_lower_fixed (l : List Char) :
    ∀ c ∈ pyStrip (collapseWS (punctToSpace (collapseWS (applyRepl replTable (toLowerStr l))))),
      Char.toLower c = c := by
  intro c hc
  rcases mem_pipeline _ c hc with h | h
  · subst h
    decide
  · rcases mem_applyRepl _ _ c h with h2 | ⟨pr, hpr, hc2⟩
    · obtain ⟨d, -, hd⟩ := mem_toLowerStr l c h2
      subst hd
      exact toLower_idem d
    · have htab : ∀ pr ∈ replTable, ∀ x ∈ pr.2, Char.toLower x = x := by decide
      exact htab pr hpr c hc2

theorem source_not_mem (l : List Char) (a : Char) (ha : a ≠ ' ')
    (hpat : ∃ pr ∈ replTable, pr.1 = [a]) (hrep : ∀ pr ∈ replTable, a ∉ pr.2) :
    a ∉ pyStrip (collapseWS (punctToSpace (collapseWS (applyRepl replTable (toLowerStr l))))) := by
  intro hmem
  rcases mem_pipeline _ a hmem with h | h
  · exact ha h
  · exact applyRepl_removes replTable _ a hpat hrep h

theorem punct_not_mem (w : List Char) (a : Char) (hp : isPunct a = true) :
    a ∉ pyStrip (collapseWS (punctToSpace (collapseWS w))) := by
  intro hmem
  have h := mem_pipeline_punct w a hmem
  rw [hp] at h
  exact absurd h (by decide)

theorem pipeline_table_absent (l : List Char) :
    ∀ pr ∈ replTable, ∃ x ∈ pr.1,
      x ∉ pyStrip (collapseWS (punctToSpace (collapseWS (applyRepl replTable (toLowerStr l))))) := by
  intro pr hpr
  fin_cases hpr
  · exact ⟨'ﬁ', by decide, source_not_mem l _ (by decide) (by decide) (by decide)⟩
  · exact ⟨'ﬂ', by decide, source_not_mem l _ (by decide) (by decide) (by decide)⟩
  · exact ⟨'ﬀ', by decide, source_not_mem l _ (by decide) (by decide) (by decide)⟩
  · exact ⟨'ﬃ', by decide, source_not_mem l _ (by decide) (by decide) (by decide)⟩
  · exact ⟨'ﬄ', by decide, source_not_mem l _ (by decide) (by decide) (by decide)⟩
  · exact ⟨'–', by decide, source_not_mem l _ (by decide) (by decide) (by decide)⟩
  · exact ⟨'—', by decide, source_not_mem l _ (by decide) (by decide) (by decide)⟩
  · exact ⟨'−', by decide, source_not_mem l _ (by decide) (by decide) (by decide)⟩
  · exact ⟨':', by decide, punct_not_mem _ ':' (by decide)⟩
  · exact ⟨'"', by decide, punct_not_mem _ '"' (by decide)⟩
  · exact ⟨'…', by decide, source_not_mem l _ (by decide) (by decide) (by decide)⟩
  · exact ⟨'​', by decide, source_not_mem l _ (by decide) (by decide) (by decide)⟩
  · exact ⟨'‌', by decide, source_not_mem l _ (by decide) (by decide) (by decide)⟩
  · exact ⟨'‍', by decide, source_not_mem l _ (by decide) (by decide) (by decide)⟩
  · exact ⟨'﻿', by decide, source_not_mem l _ (by decide) (by decide) (by decide)⟩

theorem enhanced_fixed_point (y : List Char)
    (h1 : toLowerStr y = y) (h2 : applyRepl replTable y = y) (h3 : collapseWS y = y)
    (h4 : punctToSpace y = y) (h5 : pyStrip y = y) :
    pyStrip (collapseWS (punctToSpace (collapseWS (applyRepl replTable (toLowerStr y))))) = y := by
  rw [h1, h2, h3, h4, h3, h5]

theorem enhanced_idem (l : List Char) :
    preprocessList true (preprocessList true l) = preprocessList true l := by
  have H1 := pipeline_lower_fixed l
  have H2 := pipeline_table_absent l
  rw [preprocessList, if_neg (by decide : ¬ (true = false))]
  rw [preprocessList, if_neg (by decide : ¬ (true = false))]
  revert H1 H2
  generalize applyRepl replTable (toLowerStr l) = w
  intro H1 H2
  refine enhanced_fixed_point _ ?_ ?_ ?_ ?_ ?_
  · rw [toLowerStr]
    exact map_id_of Char.toLower _ H1
  · exact applyRepl_id replTable _ H2
  · exact collapseWSAux_eq_self _ false (wsOK_strip_collapse _)
  · rw [punctToSpace]
    refine map_id_of _ _ ?_
    intro c hc
    have hp : isPunct c = false := mem_pipeline_punct _ c hc
    rw [if_neg (by rw [hp]; decide)]
  · exact pyStrip_idem _

theorem basic_idem (l : List Char) :
    preprocessList false (preprocessList false l) = preprocessList false l := by
  rw [preprocessList, if_pos rfl]
  rw [preprocessList, if_pos rfl]
  have h3 : collapseWS (pyStrip (collapseWS l)) = pyStrip (collapseWS l) :=
    collapseWSAux_eq_self _ false (wsOK_strip_collapse l)
  rw [h3]
  exact pyStrip_idem _

/-- Claim C6: `preprocess_text` is idempotent in both modes — for every
input string and both values of `enable_enhanced_preprocessing`,
applying it twice yields the same result as applying it once. -/
theorem preprocess_text_idempotent (cfg : Config) (s : String) :
    preprocess_text cfg (preprocess_text cfg s) = preprocess_text cfg s := by
  rw [preprocess_text, preprocess_text]
  have hdata : (String.mk (preprocessList cfg.enable_enhanced_preprocessing s.data)).data
      = preprocessList cfg.enable_enhanced_preprocessing s.data := rfl
  rw [hdata]
  cases he : cfg.enable_enhanced_preprocessing
  · rw [basic_idem s.data]
  · rw [enhanced_idem s.data]
